import Mathlib

/-!
# Verification of the Chartifact conversion pipeline and sandbox lifecycle

A shallow embedding of `src/views/ChartifactDialog.tsx` (the `convertToChartifact`
markdown transformation and the sandbox-lifecycle effect of the `ChartifactDialog`
component), together with theorems settling the specification's claims about them.

Documents are modeled as `List Char`.  The external services consumed by the
emitter (`prepVisTable`, `assembleVegaChart`, `exportTableToDsv`, imported from
`../app/utils` and not part of this repository) are opaque: they are passed in as a
`Services` record whose operations may fail (`Except`), mirroring the fact that the
TypeScript code wraps them in a per-chart `try`/`catch`.
-/

namespace DataFormulator

/-! ## JSON values

A small JSON model for the assembled Vega-Lite specification.  `JSON.stringify`
(a JavaScript builtin, not repository code) is modeled by `stringify` below up to
insignificant whitespace: the source serializes with
`JSON.stringify(modifiedSpec, null, 2)`; no claim depends on the layout of the
serialized spec text. -/

inductive Json where
  | null : Json
  | bool (b : Bool) : Json
  | num (n : Int) : Json
  | str (s : String) : Json
  | arr (elems : List Json) : Json
  | obj (fields : List (String × Json)) : Json

/-- JSON string escaping (the cases relevant to `JSON.stringify`). -/
def jsonEscape : List Char → List Char
  | [] => []
  | c :: t =>
    (if c = '"' then ['\\', '"']
     else if c = '\\' then ['\\', '\\']
     else if c = '\n' then ['\\', 'n']
     else if c = '\t' then ['\\', 't']
     else if c = '\r' then ['\\', 'r']
     else [c]) ++ jsonEscape t

def jsonQuote (s : String) : List Char :=
  '"' :: jsonEscape s.toList ++ ['"']

mutual

/-- Model of `JSON.stringify` on `Json` values (compact layout; see module note). -/
def stringify : Json → List Char
  | .null => "null".toList
  | .bool true => "true".toList
  | .bool false => "false".toList
  | .num n => (toString n).toList
  | .str s => jsonQuote s
  | .arr es => '[' :: (stringifyArr es ++ [']'])
  | .obj fs => '\x7b' :: (stringifyObj fs ++ ['\x7d'])

def stringifyArr : List Json → List Char
  | [] => []
  | [e] => stringify e
  | e :: e' :: rest => stringify e ++ ',' :: stringifyArr (e' :: rest)

def stringifyObj : List (String × Json) → List Char
  | [] => []
  | [(k, v)] => jsonQuote k ++ ':' :: stringify v
  | (k, v) :: kv :: rest => jsonQuote k ++ ':' :: stringify v ++ ',' :: stringifyObj (kv :: rest)

end

/-! ## Data model (`Chart`, `DictTable` from `../components/ComponentType`)

Only the fields read by `convertToChartifact` are modeled.  The encoding map,
table rows, table metadata, concept-shelf field items and service error values are
opaque to the conversion, so they are type parameters. -/

structure Chart (Enc : Type) where
  id : List Char
  chartType : String
  encodingMap : Enc
  tableRef : List Char

structure DictTable (Rows Meta : Type) where
  id : List Char
  rows : Rows
  metadata : Meta

structure ConvertConfig where
  defaultChartWidth : Int
  defaultChartHeight : Int

/-- The opaque external services consumed by the emitter (spec §1: "consumed as
opaque services").  Each may fail, which the source catches per chart. -/
structure Services (Rows Meta Enc Field Err : Type) where
  prepVisTable : Rows → List Field → Enc → Except Err Rows
  assembleVegaChart :
    String → Enc → List Field → Rows → Meta → Int → Bool → Int → Int → Bool →
      Except Err (List (String × Json))
  exportTableToDsv : DictTable Rows Meta → Char → Except Err (List Char)

/-! ## Placeholder scanner

The source scans with the global regex `/\[IMAGE\(([^)]+)\)\]/g` (line 213):
a match is the literal text `[IMAGE(`, one or more characters none of which is
`)`, then `)]`; matches are found left to right and scanning resumes after each
match (`exec` with the `g` flag). -/

/-- The literal head `[IMAGE(` of a placeholder token. -/
def hd7 : List Char := ['[', 'I', 'M', 'A', 'G', 'E', '(']

/-- The full placeholder token text `[IMAGE(` ++ id ++ `)]`. -/
def tokenL (id : List Char) : List Char := hd7 ++ id ++ [')', ']']

/-- Attempt to match the placeholder regex at the start of `s`.  On success,
returns (matched text, captured id, rest of the input after the match).
`[^)]+` is greedy and cannot skip a `)`, so the id runs to the first `)`,
which must be followed by `]`; an empty id (`[IMAGE()]`) does not match. -/
def tryMatchAt (s : List Char) : Option (List Char × List Char × List Char) :=
  if s.take 7 = hd7 then
    match (s.drop 7).dropWhile (fun c => c ≠ ')') with
    | ')' :: ']' :: rem =>
      if (s.drop 7).takeWhile (fun c => c ≠ ')') = [] then none
      else some (tokenL ((s.drop 7).takeWhile (fun c => c ≠ ')')),
                 (s.drop 7).takeWhile (fun c => c ≠ ')'), rem)
    | _ => none
  else none

theorem tryMatchAt_some {s f i rem : List Char}
    (h : tryMatchAt s = some (f, i, rem)) :
    f = tokenL i ∧ i ≠ [] ∧ ')' ∉ i ∧ s = f ++ rem := by
  unfold tryMatchAt at h
  split at h
  case isFalse => exact absurd h (by simp)
  rename_i htake
  split at h
  case h_2 => exact absurd h (by simp)
  rename_i rem' hdrop
  split at h
  case isTrue => exact absurd h (by simp)
  rename_i hne
  have hwhile := List.takeWhile_append_dropWhile (p := fun c => c ≠ ')') (l := s.drop 7)
  rw [hdrop] at hwhile
  have h' := Option.some.inj h
  injection h' with hf hrest
  injection hrest with hi hrem
  subst hi
  subst hf
  subst hrem
  refine ⟨rfl, hne, ?_, ?_⟩
  · intro hmem
    have := List.mem_takeWhile_imp hmem
    simp at this
  · generalize hwg : (s.drop 7).takeWhile (fun c => c ≠ ')') = tw at hwhile ⊢
    conv_lhs => rw [← List.take_append_drop 7 s, htake, ← hwhile]
    simp [tokenL]

theorem tryMatchAt_shrinks {s f i rem : List Char}
    (h : tryMatchAt s = some (f, i, rem)) : rem.length < s.length := by
  obtain ⟨hf, hi, -, hs⟩ := tryMatchAt_some h
  subst hs
  have : 0 < f.length := by
    subst hf
    simp [tokenL, hd7]
  simp only [List.length_append]
  omega

/-- Fuel-indexed scanning loop: try a match at the current position; on a match
emit it and resume after the matched text, otherwise advance one character.
Every step consumes at least one character, so fuel equal to the input length
suffices (see `tryMatchAt_shrinks`); the fuel only makes the recursion
structural. -/
def scanFuel : Nat → List Char → List (List Char × List Char)
  | 0, _ => []
  | _, [] => []
  | fuel + 1, c :: rest =>
    match tryMatchAt (c :: rest) with
    | some (f, i, rem) => (f, i) :: scanFuel fuel rem
    | none => scanFuel fuel rest

/-- The scanner: all matches of the placeholder regex, in left-to-right order,
non-overlapping, as (matched text, captured id) pairs (source lines 213–219). -/
def scanAux (s : List Char) : List (List Char × List Char) :=
  scanFuel s.length s

/-! ## String replacement

`result.replace(original, specReplacement)` (source line 289) with a *string*
pattern replaces only the **first** occurrence, searching the whole current
string, and processes the special replacement patterns `$$`, `$&`, `` $` ``
and `$'` in the replacement string (JavaScript `String.prototype.replace`
semantics; with a string pattern there are no capture groups, so `$n` and
`$<name>` are inserted literally). -/

/-- Backtick character (used by the `` $` `` replacement pattern). -/
def backtickChar : Char := Char.ofNat 96

/-- Apostrophe character (used by the `$'` replacement pattern). -/
def aposChar : Char := Char.ofNat 39

/-- JavaScript replacement-string expansion: `$$` → `$`, `$&` → matched text,
`` $` `` → portion before the match, `$'` → portion after the match; any other
`$` is literal. -/
def expandRepl (matched before after : List Char) : List Char → List Char
  | [] => []
  | [c] => [c]
  | c :: c' :: t =>
    if c = '$' then
      if c' = '$' then '$' :: expandRepl matched before after t
      else if c' = '&' then matched ++ expandRepl matched before after t
      else if c' = backtickChar then before ++ expandRepl matched before after t
      else if c' = aposChar then after ++ expandRepl matched before after t
      else '$' :: expandRepl matched before after (c' :: t)
    else c :: expandRepl matched before after (c' :: t)

/-- Split `s` around the first occurrence of `pat`: `some (before, after)` with
`s = before ++ pat ++ after`, or `none` when `pat` does not occur. -/
def splitFirst (pat : List Char) : List Char → Option (List Char × List Char)
  | [] => if pat = [] then some ([], []) else none
  | c :: s =>
    if pat.isPrefixOf (c :: s) then some ([], (c :: s).drop pat.length)
    else
      match splitFirst pat s with
      | some (b, a) => some (c :: b, a)
      | none => none

/-- Model of `s.replace(pat, rep)` with a string pattern. -/
def replaceFirst (pat rep s : List Char) : List Char :=
  match splitFirst pat s with
  | some (before, after) => before ++ expandRepl pat before after rep ++ after
  | none => s

/-- Number of (possibly overlapping) occurrences of `pat` in a string: the
number of positions at which `pat` is a prefix of the remaining text. -/
def countOcc (pat : List Char) : List Char → Nat
  | [] => if pat = [] then 1 else 0
  | c :: s => (if pat.isPrefixOf (c :: s) then 1 else 0) + countOcc pat s

/-! ## Spec emission (source lines 240–284) -/

/-- `chartId.replace(/[^a-zA-Z0-9]/g, '_')` acting on one character. -/
def sanitizeChar (c : Char) : Char := if c.isAlphanum then c else '_'

/-- `` `chartData_${chartId.replace(/[^a-zA-Z0-9]/g, '_')}` `` (source line 259). -/
def dataNameOf (chartId : List Char) : List Char :=
  "chartData_".toList ++ chartId.map sanitizeChar

/-- The named-data-source object `{ name: dataName }` (source line 262). -/
def dataJson (dataName : List Char) : Json :=
  Json.obj [("name", Json.str (String.mk dataName))]

/-- JavaScript object spread with override, `{...vegaSpec, data: d}`: if a
`data` field exists its value is overridden in place, otherwise the field is
appended (source lines 260–263). -/
def overrideData (fields : List (String × Json)) (d : Json) : List (String × Json) :=
  if fields.any (fun kv => kv.1 = "data")
  then fields.map (fun kv => if kv.1 = "data" then (kv.1, d) else kv)
  else fields ++ [("data", d)]

/-- First-match field lookup in a JSON object. -/
def lookupField (fields : List (String × Json)) (key : String) : Option Json :=
  match fields with
  | [] => none
  | (k, v) :: rest => if k = key then some v else lookupField rest key

/-- The fenced spec replacement text (source lines 269–274):
a blank line, then a ```` ```json vega-lite ```` fence around the serialized
modified spec, closed by a ```` ``` ```` fence and a newline. -/
def specBlockText (modifiedSpec : List (String × Json)) : List Char :=
  "\n\n```json vega-lite\n".toList ++ stringify (Json.obj modifiedSpec) ++ "\n```\n".toList

/-- One entry of `chartReplacements` (source line 216). -/
structure Replacement where
  original : List Char
  specReplacement : List Char
  dataName : List Char
  csvContent : List Char
deriving DecidableEq

variable {Rows Meta Enc Field Err : Type}

/-- The body of the scanning loop (source lines 219–284) for one match
`(fullMatch, chartId)`: resolve the chart (line 222), its table (line 229),
skip non-visual chart types (line 236), then emit, catching any service
failure per chart (lines 240–284).  `none` means the placeholder is skipped:
nothing is pushed onto `chartReplacements`. -/
def processMatch (charts : List (Chart Enc)) (tables : List (DictTable Rows Meta))
    (conceptShelfItems : List Field) (config : ConvertConfig)
    (sv : Services Rows Meta Enc Field Err) (m : List Char × List Char) :
    Option Replacement :=
  match charts.find? (fun c => c.id == m.2) with
  | none => none
  | some chart =>
    match tables.find? (fun t => t.id == chart.tableRef) with
    | none => none
    | some chartTable =>
      if chart.chartType == "Table" || chart.chartType == "?" then none
      else
        match sv.prepVisTable chartTable.rows conceptShelfItems chart.encodingMap with
        | .error _ => none
        | .ok processedRows =>
          match sv.assembleVegaChart chart.chartType chart.encodingMap conceptShelfItems
              processedRows chartTable.metadata 30 true config.defaultChartWidth
              config.defaultChartHeight true with
          | .error _ => none
          | .ok vegaSpec =>
            match sv.exportTableToDsv chartTable ',' with
            | .error _ => none
            | .ok csvContent =>
              some { original := m.1
                     specReplacement :=
                       specBlockText (overrideData vegaSpec (dataJson (dataNameOf m.2)))
                     dataName := dataNameOf m.2
                     csvContent := csvContent }

/-- The list `chartReplacements` built by the scanning loop, in left-to-right
match order (source lines 216–285). -/
def chartReplacementsOf (charts : List (Chart Enc)) (tables : List (DictTable Rows Meta))
    (conceptShelfItems : List Field) (config : ConvertConfig)
    (sv : Services Rows Meta Enc Field Err) (reportMarkdown : List Char) :
    List Replacement :=
  (scanAux reportMarkdown).filterMap (processMatch charts tables conceptShelfItems config sv)

/-- One spec substitution: `result = result.replace(original, specReplacement)`
(source line 289). -/
def applyRep (res : List Char) (r : Replacement) : List Char :=
  replaceFirst r.original r.specReplacement res

/-- The appended CSV data block for one replacement (source line 296):
`` \n```csv ${dataName}\n${csvContent}\n```\n ``. -/
def csvBlock (r : Replacement) : List Char :=
  "\n```csv ".toList ++ r.dataName ++ "\n".toList ++ r.csvContent ++ "\n```\n".toList

/-- `convertToChartifact` (source lines 209–305): scan the report for
`[IMAGE(id)]` placeholders, resolve and emit each, apply all spec
substitutions, then — if anything was emitted — append `'\n\n'` followed by all
CSV data blocks. -/
def convertToChartifact (charts : List (Chart Enc)) (tables : List (DictTable Rows Meta))
    (conceptShelfItems : List Field) (config : ConvertConfig)
    (sv : Services Rows Meta Enc Field Err) (reportMarkdown : List Char) : List Char :=
  let chartReplacements :=
    chartReplacementsOf charts tables conceptShelfItems config sv reportMarkdown
  let result := chartReplacements.foldl applyRep reportMarkdown
  if chartReplacements.length > 0 then
    chartReplacements.foldl (fun acc r => acc ++ csvBlock r) (result ++ "\n\n".toList)
  else result

/-! ## Sandbox lifecycle (source lines 83–205)

A model of the sandbox-owning React effect (lines 186–205) together with the
`onReady` callback and external tombstoning.  React semantics: when the
effect's dependencies change, the cleanup function registered by the *previous*
effect run executes first, and its closure captured that previous render's
`open` prop; `sandboxRef` and the state setters operate on current state. -/

structure SandboxHandle where
  instId : Nat
  /-- Whether the handle exposes `destroy` (the cleanup checks
  `if (sandboxRef.current.destroy)` before calling it, line 198). -/
  hasDestroy : Bool
  /-- Abstracts `isSandboxFunctional` (lines 156–178): the embedded iframe has
  a live `contentWindow` and a non-placeholder `src`. -/
  functional : Bool

structure LifecycleState where
  /-- `sandboxRef.current`. -/
  handle : Option SandboxHandle
  /-- `sandboxReady` state. -/
  sandboxReady : Bool
  /-- Instance ids on which `destroy()` has been invoked, newest first. -/
  destroyed : List Nat
  /-- Fresh instance counter for `new Sandbox(...)`. -/
  nextId : Nat
  /-- The `open` prop captured by the currently registered effect cleanup
  (`none` before the effect has ever run). -/
  cleanupOpen : Option Bool

/-- The props read by the effect: `open`, `chartifactLoaded`, `source`
non-emptiness and `parentElement` availability. -/
structure EffectProps where
  openFlag : Bool
  chartifactLoaded : Bool
  sourceNonEmpty : Bool
  hasParentElement : Bool

/-- `isSandboxFunctional` (lines 156–178) on the model state. -/
def isSandboxFunctional (s : LifecycleState) : Bool :=
  match s.handle with
  | none => false
  | some h => h.functional

/-- The effect cleanup body (lines 196–204), parameterized by the `open` value
captured in its closure: `if (!open && sandboxRef.current) { destroy?;
sandboxRef.current = null; setSandboxReady(false); }`. -/
def runCleanup (capturedOpen : Bool) (s : LifecycleState) : LifecycleState :=
  match s.handle with
  | none => s
  | some h =>
    if capturedOpen then s
    else
      { s with
        handle := none
        sandboxReady := false
        destroyed := if h.hasDestroy then h.instId :: s.destroyed else s.destroyed }

/-- The effect body (lines 187–193): when open with runtime, source and mount
point available, recreate the sandbox unless it is functional and ready, in
which case the current source is sent into the live instance. -/
def runEffectBody (p : EffectProps) (s : LifecycleState) : LifecycleState :=
  if p.openFlag && p.chartifactLoaded && p.sourceNonEmpty && p.hasParentElement then
    if !isSandboxFunctional s || !s.sandboxReady then
      -- initializeSandbox (lines 131–153): constructs a fresh instance and
      -- overwrites sandboxRef.current.
      { s with handle := some ⟨s.nextId, true, true⟩, nextId := s.nextId + 1 }
    else
      s -- sandboxRef.current.send(source): no lifecycle-state change.
  else s

inductive LifecycleEvent where
  /-- React re-runs the effect because a dependency changed: previous cleanup
  (with its captured `open`), then the body, then a new cleanup is registered
  capturing the new `open`. -/
  | effectRun (p : EffectProps)
  /-- The sandbox's `onReady` callback fires: `setSandboxReady(true)`. -/
  | readyCallback
  /-- The host silently kills the sandbox's execution context (tombstoning). -/
  | tombstone
  /-- The component unmounts: React runs the registered cleanup. -/
  | unmount

def lcStep (s : LifecycleState) : LifecycleEvent → LifecycleState
  | .effectRun p =>
    let s₁ := match s.cleanupOpen with
              | none => s
              | some co => runCleanup co s
    let s₂ := runEffectBody p s₁
    { s₂ with cleanupOpen := some p.openFlag }
  | .readyCallback => { s with sandboxReady := true }
  | .tombstone =>
    { s with handle := s.handle.map (fun h => { h with functional := false }) }
  | .unmount =>
    match s.cleanupOpen with
    | none => s
    | some co => runCleanup co s

def initialLifecycleState : LifecycleState :=
  { handle := none, sandboxReady := false, destroyed := [], nextId := 0, cleanupOpen := none }

def runLifecycle (events : List LifecycleEvent) : LifecycleState :=
  events.foldl lcStep initialLifecycleState

/-! ## Scanner lemmas -/

theorem scanFuel_sound : ∀ (fuel : Nat) (s : List Char), s.length ≤ fuel →
    ∀ {f i : List Char}, (f, i) ∈ scanFuel fuel s →
      f = tokenL i ∧ i ≠ [] ∧ ')' ∉ i ∧ f <:+: s := by
  intro fuel
  induction fuel with
  | zero => intro s _ f i h; simp [scanFuel] at h
  | succ fuel ih =>
    intro s hlen f i h
    match s with
    | [] => simp [scanFuel] at h
    | c :: rest =>
      rw [scanFuel] at h
      split at h
      · rename_i f' i' rem hmatch
        obtain ⟨hshape, hne, hnin, hsplit⟩ := tryMatchAt_some hmatch
        rcases List.mem_cons.mp h with heq | hmem
        · injection heq with h1 h2
          subst h1
          subst h2
          exact ⟨hshape, hne, hnin, hsplit ▸ List.IsPrefix.isInfix (List.prefix_append f rem)⟩
        · have hrem : rem.length ≤ fuel := by
            have := tryMatchAt_shrinks hmatch
            simp only [List.length_cons] at this hlen
            omega
          obtain ⟨h1, h2, h3, h4⟩ := ih rem hrem hmem
          exact ⟨h1, h2, h3, h4.trans (hsplit ▸ List.IsSuffix.isInfix (List.suffix_append f' rem))⟩
      · have hrest : rest.length ≤ fuel := by
          simp only [List.length_cons] at hlen
          omega
        obtain ⟨h1, h2, h3, h4⟩ := ih rest hrest h
        exact ⟨h1, h2, h3, List.infix_cons h4⟩

theorem scanAux_sound (s : List Char) {f i : List Char} (h : (f, i) ∈ scanAux s) :
    f = tokenL i ∧ i ≠ [] ∧ ')' ∉ i ∧ f <:+: s :=
  scanFuel_sound s.length s le_rfl h

theorem lbrack_mem_tokenL (id : List Char) : '[' ∈ tokenL id := by
  simp [tokenL, hd7]

theorem convert_of_scanAux_nil (charts : List (Chart Enc)) (tables : List (DictTable Rows Meta))
    (conceptShelfItems : List Field) (config : ConvertConfig)
    (sv : Services Rows Meta Enc Field Err) (doc : List Char)
    (h : scanAux doc = []) :
    convertToChartifact charts tables conceptShelfItems config sv doc = doc := by
  unfold convertToChartifact chartReplacementsOf
  rw [h]
  simp

/-- C10: the placeholder scanner only produces matches `[IMAGE(<id>)]` whose id
is non-empty and contains no `)`, the matched text being exactly the token for
that id; consequently the degenerate text `[IMAGE()]` is never treated as a
placeholder and a document containing only such degenerate brackets is passed
through the conversion verbatim, for any chart store, table store, shelf,
configuration and services. -/
theorem scanner_wellformed_and_degenerate_verbatim :
    (∀ (doc f i : List Char), (f, i) ∈ scanAux doc → i ≠ [] ∧ ')' ∉ i ∧ f = tokenL i) ∧
    (∀ (Rows Meta Enc Field Err : Type) (charts : List (Chart Enc))
        (tables : List (DictTable Rows Meta)) (conceptShelfItems : List Field)
        (config : ConvertConfig) (sv : Services Rows Meta Enc Field Err),
      convertToChartifact charts tables conceptShelfItems config sv
          "a [IMAGE()] b [IMAGE(x)y] c".toList = "a [IMAGE()] b [IMAGE(x)y] c".toList) := by
  constructor
  · intro doc f i h
    obtain ⟨h1, h2, h3, -⟩ := scanAux_sound doc h
    exact ⟨h2, h3, h1⟩
  · intro Rows Meta Enc Field Err charts tables conceptShelfItems config sv
    exact convert_of_scanAux_nil charts tables conceptShelfItems config sv _ (by decide)

theorem scanner_wellformed_witness :
    "c1".toList ≠ [] ∧ ')' ∉ "c1".toList ∧ "[IMAGE(c1)]".toList = tokenL "c1".toList :=
  scanner_wellformed_and_degenerate_verbatim.1 "x [IMAGE(c1)] y".toList _ _ (by decide)

/-- C3: a document in which no well-formed placeholder token occurs is returned
unchanged by the conversion — no replacement is made and no data block or
trailing blank line is appended. -/
theorem convert_no_placeholders_unchanged (charts : List (Chart Enc))
    (tables : List (DictTable Rows Meta)) (conceptShelfItems : List Field)
    (config : ConvertConfig) (sv : Services Rows Meta Enc Field Err) (doc : List Char)
    (h : ∀ id : List Char, id ≠ [] → ')' ∉ id → ¬ tokenL id <:+: doc) :
    convertToChartifact charts tables conceptShelfItems config sv doc = doc := by
  apply convert_of_scanAux_nil
  cases hs : scanAux doc with
  | nil => rfl
  | cons m rest =>
    have hmem : (m.1, m.2) ∈ scanAux doc := by rw [hs]; exact List.mem_cons_self _ _
    obtain ⟨hshape, hne, hnin, hinf⟩ := scanAux_sound doc hmem
    exact absurd (hshape ▸ hinf) (h m.2 hne hnin)

/-! ### Concrete fixtures used by witnesses and counterexamples

The opaque type parameters are instantiated with `Nat`/`Unit`; the services
return fixed benign values (their outputs are opaque to the conversion). -/

def exampleServices : Services Nat Nat Nat Nat Unit :=
  { prepVisTable := fun r _ _ => .ok r
    assembleVegaChart := fun _ _ _ _ _ _ _ _ _ _ => .ok [("mark", Json.str "bar")]
    exportTableToDsv := fun _ _ => .ok "x,y\n1,2".toList }

def exampleCharts : List (Chart Nat) :=
  [{ id := "c1".toList, chartType := "bar", encodingMap := 0, tableRef := "t1".toList }]

def exampleTables : List (DictTable Nat Nat) :=
  [{ id := "t1".toList, rows := 0, metadata := 0 }]

def exampleConfig : ConvertConfig := { defaultChartWidth := 300, defaultChartHeight := 200 }

def exampleChartsA : List (Chart Nat) :=
  [{ id := "a".toList, chartType := "bar", encodingMap := 0, tableRef := "t1".toList }]

theorem convert_no_placeholders_witness :
    convertToChartifact exampleCharts exampleTables ([] : List Nat) exampleConfig
        exampleServices "hello world".toList = "hello world".toList := by
  apply convert_no_placeholders_unchanged
  intro id _ _ hinf
  have : '[' ∈ "hello world".toList := hinf.subset (lbrack_mem_tokenL id)
  simp at this

/-! ## Emission lemmas (C5, C6) -/

theorem lookupField_overrideData : ∀ (fields : List (String × Json)) (d : Json),
    lookupField (overrideData fields d) "data" = some d := by
  intro fields d
  induction fields with
  | nil => simp [overrideData, lookupField]
  | cons kv rest ih =>
    by_cases hk : kv.1 = "data"
    · simp [overrideData, List.any_cons, hk, lookupField]
    · by_cases ha : rest.any (fun kv => kv.1 = "data")
      · have hrest := ih
        simp only [overrideData, if_pos ha] at hrest
        simp [overrideData, List.any_cons, hk, ha, lookupField, hrest]
      · have hrest := ih
        simp only [overrideData, if_neg ha] at hrest
        simp [overrideData, List.any_cons, hk, ha, lookupField, hrest]

/-- Unfolded characterization of a successful `processMatch`. -/
theorem processMatch_some {charts : List (Chart Enc)} {tables : List (DictTable Rows Meta)}
    {conceptShelfItems : List Field} {config : ConvertConfig}
    {sv : Services Rows Meta Enc Field Err} {m : List Char × List Char} {r : Replacement}
    (h : processMatch charts tables conceptShelfItems config sv m = some r) :
    r.original = m.1 ∧ r.dataName = dataNameOf m.2 ∧
    ∃ vegaSpec : List (String × Json),
      r.specReplacement = specBlockText (overrideData vegaSpec (dataJson (dataNameOf m.2))) := by
  unfold processMatch at h
  split at h
  case h_1 => exact absurd h (by simp)
  split at h
  case h_1 => exact absurd h (by simp)
  split at h
  case isTrue => exact absurd h (by simp)
  split at h
  case h_1 => exact absurd h (by simp)
  split at h
  case h_1 => exact absurd h (by simp)
  rename_i vegaSpec _
  split at h
  case h_1 => exact absurd h (by simp)
  have := Option.some.inj h
  subst this
  exact ⟨rfl, rfl, vegaSpec, rfl⟩

/-- C5: for every successfully emitted chart, the data name is `chartData_`
followed by the chartId with every non-alphanumeric character replaced by `_`,
and the emitted spec block serializes the assembled spec with its `data` field
overridden to `{ name: <dataName> }`. -/
theorem emitted_dataName_and_data_field (charts : List (Chart Enc))
    (tables : List (DictTable Rows Meta)) (conceptShelfItems : List Field)
    (config : ConvertConfig) (sv : Services Rows Meta Enc Field Err)
    (m : List Char × List Char) (r : Replacement)
    (h : processMatch charts tables conceptShelfItems config sv m = some r) :
    r.dataName = "chartData_".toList ++ m.2.map sanitizeChar ∧
    ∃ vegaSpec : List (String × Json),
      r.specReplacement = specBlockText (overrideData vegaSpec (dataJson r.dataName)) ∧
      lookupField (overrideData vegaSpec (dataJson r.dataName)) "data" =
        some (dataJson r.dataName) := by
  obtain ⟨-, hdn, vegaSpec, hspec⟩ := processMatch_some h
  refine ⟨hdn, vegaSpec, ?_, lookupField_overrideData _ _⟩
  rw [hdn]
  exact hspec

theorem emitted_dataName_witness :
    (processMatch exampleCharts exampleTables ([] : List Nat) exampleConfig exampleServices
        ("[IMAGE(c1)]".toList, "c1".toList)).map (fun r => r.dataName) =
      some ("chartData_".toList ++ "c1".toList.map sanitizeChar) := by
  obtain ⟨r, hr⟩ : ∃ r, processMatch exampleCharts exampleTables ([] : List Nat) exampleConfig
      exampleServices ("[IMAGE(c1)]".toList, "c1".toList) = some r := ⟨_, rfl⟩
  rw [hr]
  have := emitted_dataName_and_data_field exampleCharts exampleTables ([] : List Nat)
    exampleConfig exampleServices ("[IMAGE(c1)]".toList, "c1".toList) r hr
  rw [Option.map_some']
  exact congrArg some this.1

/-- C6 counterexample: the sanitization is **not** injective on valid
(non-empty, `)`-free) chart ids: the distinct ids `a-b` and `a_b` collide. -/
theorem dataName_collision_counterexample :
    dataNameOf "a-b".toList = dataNameOf "a_b".toList ∧
    "a-b".toList ≠ "a_b".toList ∧
    "a-b".toList ≠ [] ∧ ')' ∉ "a-b".toList ∧ "a_b".toList ≠ [] ∧ ')' ∉ "a_b".toList := by
  refine ⟨by decide, by decide, by decide, by decide, by decide, by decide⟩

/-- C6 amended: dataName generation is a pure, deterministic function of the
chartId alone (whatever the stores, configuration and services), and the
sanitization is injective on ids consisting only of alphanumeric characters;
distinct ids differing in non-alphanumeric characters may collide (see the
counterexample). -/
theorem dataName_deterministic_inj_on_alnum :
    (∀ (Rows Meta Enc Field Err : Type) (charts : List (Chart Enc))
        (tables : List (DictTable Rows Meta)) (conceptShelfItems : List Field)
        (config : ConvertConfig) (sv : Services Rows Meta Enc Field Err)
        (m : List Char × List Char) (r : Replacement),
      processMatch charts tables conceptShelfItems config sv m = some r →
        r.dataName = dataNameOf m.2) ∧
    (∀ id₁ id₂ : List Char, (∀ c ∈ id₁, c.isAlphanum) → (∀ c ∈ id₂, c.isAlphanum) →
      dataNameOf id₁ = dataNameOf id₂ → id₁ = id₂) := by
  constructor
  · intro Rows Meta Enc Field Err charts tables conceptShelfItems config sv m r h
    exact (processMatch_some h).2.1
  · intro id₁ id₂ h₁ h₂ h
    have e₁ : id₁.map sanitizeChar = id₁ := by
      conv_rhs => rw [← List.map_id id₁]
      apply List.map_congr_left
      intro c hc
      simp [sanitizeChar, h₁ c hc]
    have e₂ : id₂.map sanitizeChar = id₂ := by
      conv_rhs => rw [← List.map_id id₂]
      apply List.map_congr_left
      intro c hc
      simp [sanitizeChar, h₂ c hc]
    unfold dataNameOf at h
    rw [e₁, e₂] at h
    exact List.append_cancel_left h

theorem dataName_deterministic_witness :
    "ab1".toList = "ab1".toList ∧
    (processMatch exampleCharts exampleTables ([] : List Nat) exampleConfig exampleServices
        ("[IMAGE(c1)]".toList, "c1".toList)).map (fun r => r.dataName) =
      some (dataNameOf "c1".toList) := by
  constructor
  · exact dataName_deterministic_inj_on_alnum.2 "ab1".toList "ab1".toList
      (by decide) (by decide) rfl
  · obtain ⟨r, hr⟩ : ∃ r, processMatch exampleCharts exampleTables ([] : List Nat) exampleConfig
        exampleServices ("[IMAGE(c1)]".toList, "c1".toList) = some r := ⟨_, rfl⟩
    rw [hr, Option.map_some']
    exact congrArg some
      (dataName_deterministic_inj_on_alnum.1 _ _ _ _ _ _ _ _ _ _ _ _ hr)

/-- C8: the conversion is a pure function of the report document, the chart
store, the table store, the concept-shelf items, the configuration, and the
(deterministic) services: two runs on equal inputs produce byte-identical
output. -/
theorem conversion_deterministic (charts₁ charts₂ : List (Chart Enc))
    (tables₁ tables₂ : List (DictTable Rows Meta)) (shelf₁ shelf₂ : List Field)
    (config₁ config₂ : ConvertConfig) (sv₁ sv₂ : Services Rows Meta Enc Field Err)
    (doc₁ doc₂ : List Char)
    (hc : charts₁ = charts₂) (ht : tables₁ = tables₂) (hs : shelf₁ = shelf₂)
    (hcfg : config₁ = config₂) (hsv : sv₁ = sv₂) (hdoc : doc₁ = doc₂) :
    convertToChartifact charts₁ tables₁ shelf₁ config₁ sv₁ doc₁ =
      convertToChartifact charts₂ tables₂ shelf₂ config₂ sv₂ doc₂ := by
  subst hc ht hs hcfg hsv hdoc
  rfl

theorem conversion_deterministic_witness :
    convertToChartifact exampleCharts exampleTables ([] : List Nat) exampleConfig
        exampleServices "See [IMAGE(c1)] here.".toList =
      convertToChartifact exampleCharts exampleTables ([] : List Nat) exampleConfig
        exampleServices "See [IMAGE(c1)] here.".toList :=
  conversion_deterministic exampleCharts exampleCharts exampleTables exampleTables
    ([] : List Nat) ([] : List Nat) exampleConfig exampleConfig exampleServices
    exampleServices "See [IMAGE(c1)] here.".toList "See [IMAGE(c1)] here.".toList
    rfl rfl rfl rfl rfl rfl

/-! ## Document assembly (C4) -/

theorem foldl_append_csvBlock : ∀ (reps : List Replacement) (init : List Char),
    reps.foldl (fun acc r => acc ++ csvBlock r) init = init ++ (reps.map csvBlock).flatten := by
  intro reps
  induction reps with
  | nil => intro init; simp
  | cons r rest ih =>
    intro init
    simp only [List.foldl_cons, List.map_cons, List.flatten_cons]
    rw [ih, List.append_assoc]

/-- C4: when at least one chart was emitted, the transformed document is the
result of all spec substitutions (applied in emission order to the source
document), followed by a blank line, followed by the concatenation of all CSV
data blocks — each a fenced block labeled with its dataName, wrapped in
newlines — in the order the corresponding placeholders were discovered by the
scanner (the emission list is the scanner output filtered through resolution,
hence in left-to-right discovery order). -/
theorem convert_decomp (charts : List (Chart Enc))
    (tables : List (DictTable Rows Meta)) (conceptShelfItems : List Field)
    (config : ConvertConfig) (sv : Services Rows Meta Enc Field Err) (doc : List Char)
    (h : chartReplacementsOf charts tables conceptShelfItems config sv doc ≠ []) :
    convertToChartifact charts tables conceptShelfItems config sv doc =
      (chartReplacementsOf charts tables conceptShelfItems config sv doc).foldl applyRep doc
        ++ "\n\n".toList
        ++ ((chartReplacementsOf charts tables conceptShelfItems config sv doc).map
              csvBlock).flatten := by
  unfold convertToChartifact
  have hlen : (chartReplacementsOf charts tables conceptShelfItems config sv doc).length > 0 :=
    List.length_pos.mpr h
  simp only [hlen, if_pos]
  rw [foldl_append_csvBlock, List.append_assoc]

theorem data_blocks_appended_in_order (charts : List (Chart Enc))
    (tables : List (DictTable Rows Meta)) (conceptShelfItems : List Field)
    (config : ConvertConfig) (sv : Services Rows Meta Enc Field Err) (doc : List Char)
    (h : chartReplacementsOf charts tables conceptShelfItems config sv doc ≠ []) :
    convertToChartifact charts tables conceptShelfItems config sv doc =
      (chartReplacementsOf charts tables conceptShelfItems config sv doc).foldl applyRep doc
        ++ "\n\n".toList
        ++ ((chartReplacementsOf charts tables conceptShelfItems config sv doc).map
              csvBlock).flatten ∧
    chartReplacementsOf charts tables conceptShelfItems config sv doc =
      (scanAux doc).filterMap (processMatch charts tables conceptShelfItems config sv) :=
  ⟨convert_decomp charts tables conceptShelfItems config sv doc h, rfl⟩

theorem data_blocks_appended_witness :
    convertToChartifact exampleCharts exampleTables ([] : List Nat) exampleConfig
        exampleServices "See [IMAGE(c1)] here.".toList =
      (chartReplacementsOf exampleCharts exampleTables ([] : List Nat) exampleConfig
          exampleServices "See [IMAGE(c1)] here.".toList).foldl applyRep
          "See [IMAGE(c1)] here.".toList
        ++ "\n\n".toList
        ++ ((chartReplacementsOf exampleCharts exampleTables ([] : List Nat) exampleConfig
              exampleServices "See [IMAGE(c1)] here.".toList).map csvBlock).flatten :=
  (data_blocks_appended_in_order exampleCharts exampleTables ([] : List Nat) exampleConfig
    exampleServices "See [IMAGE(c1)] here.".toList (by decide)).1

/-! ## Sandbox lifecycle (C9)

The spec (§4.5) requires that *every* close event runs teardown: destroy the
sandbox if a `destroy` method is available, clear the handle, and reset
readiness — "this must run on every close, including mid-load or
mid-instantiation".  In the code, the effect cleanup's `!open` test reads the
`open` value captured at the *previous* render (the render whose effect
registered the cleanup).  On the render cycle in which `open` flips to
`false`, the registered cleanup still sees `open = true` and skips teardown,
and the new effect body does nothing because `open` is now `false`. -/

/-- C9 (code bug): after open → loaded/instantiated → ready → close, the
sandbox handle is still live, `destroy()` has not been invoked, and readiness
has not been reset — teardown did not run on the close event.  It runs only at
the *next* cleanup trigger: a subsequent unmount (last two conjuncts) finally
destroys instance `0` and clears the handle. -/
theorem close_event_skips_teardown :
    (runLifecycle [.effectRun ⟨true, true, true, true⟩, .readyCallback,
        .effectRun ⟨false, true, true, true⟩]).handle.isSome = true ∧
    (runLifecycle [.effectRun ⟨true, true, true, true⟩, .readyCallback,
        .effectRun ⟨false, true, true, true⟩]).destroyed = [] ∧
    (runLifecycle [.effectRun ⟨true, true, true, true⟩, .readyCallback,
        .effectRun ⟨false, true, true, true⟩]).sandboxReady = true ∧
    (runLifecycle [.effectRun ⟨true, true, true, true⟩, .readyCallback,
        .effectRun ⟨false, true, true, true⟩, .unmount]).handle = none ∧
    (runLifecycle [.effectRun ⟨true, true, true, true⟩, .readyCallback,
        .effectRun ⟨false, true, true, true⟩, .unmount]).destroyed = [0] ∧
    (runLifecycle [.effectRun ⟨true, true, true, true⟩, .readyCallback,
        .effectRun ⟨false, true, true, true⟩, .unmount]).sandboxReady = false := by
  refine ⟨rfl, rfl, rfl, rfl, rfl, rfl⟩

/-! ## Replacement machinery: first-occurrence splitting -/

theorem splitFirst_some : ∀ {s b a : List Char} (pat : List Char),
    splitFirst pat s = some (b, a) → s = b ++ pat ++ a := by
  intro s
  induction s with
  | nil =>
    intro b a pat h
    unfold splitFirst at h
    split at h
    · rename_i hpat
      subst hpat
      have := Option.some.inj h
      injection this with h1 h2
      subst h1
      subst h2
      rfl
    · exact absurd h (by simp)
  | cons c s ih =>
    intro b a pat h
    unfold splitFirst at h
    split at h
    · rename_i hpre
      rw [ List.isPrefixOf_iff_prefix] at hpre
      have := Option.some.inj h
      injection this with h1 h2
      subst h1
      subst h2
      have := List.prefix_iff_eq_append.mp hpre
      simpa using this.symm
    · split at h
      · rename_i b' a' hsp
        have := Option.some.inj h
        injection this with h1 h2
        subst h1
        subst h2
        have := ih pat hsp
        simp [this]
      · exact absurd h (by simp)

theorem splitFirst_none_iff {pat : List Char} (hpat : pat ≠ []) :
    ∀ {s : List Char}, splitFirst pat s = none ↔ ¬ pat <:+: s := by
  intro s
  induction s with
  | nil =>
    unfold splitFirst
    simp [hpat]
  | cons c s ih =>
    unfold splitFirst
    rw [List.infix_cons_iff]
    split
    · rename_i hpre
      rw [ List.isPrefixOf_iff_prefix] at hpre
      simp [hpre]
    · rename_i hpre
      rw [ List.isPrefixOf_iff_prefix] at hpre
      cases hsp : splitFirst pat s with
      | some v =>
        have hinf : pat <:+: s := by
          by_contra hc
          rw [ih.mpr hc] at hsp
          exact absurd hsp (by simp)
        simp [hsp, hpre, hinf]
      | none => simp [hsp, hpre, ih.mp hsp]

theorem replaceFirst_of_not_infix {pat : List Char} (hpat : pat ≠ []) {s : List Char}
    (h : ¬ pat <:+: s) (rep : List Char) : replaceFirst pat rep s = s := by
  unfold replaceFirst
  rw [(splitFirst_none_iff hpat).mpr h]

theorem splitFirst_isSome_of_infix {pat : List Char} (hpat : pat ≠ []) {s : List Char}
    (h : pat <:+: s) : ∃ b a, splitFirst pat s = some (b, a) := by
  cases hsp : splitFirst pat s with
  | none => exact absurd ((splitFirst_none_iff hpat).mp hsp) (not_not.mpr h)
  | some v => exact ⟨v.1, v.2, by simp [hsp]⟩

theorem replaceFirst_eq_of_split {pat s b a : List Char}
    (h : splitFirst pat s = some (b, a)) (rep : List Char) :
    replaceFirst pat rep s = b ++ expandRepl pat b a rep ++ a := by
  unfold replaceFirst
  rw [h]

theorem expandRepl_no_dollar_aux (matched before after : List Char) :
    ∀ (n : Nat) (rep : List Char), rep.length ≤ n → '$' ∉ rep →
      expandRepl matched before after rep = rep := by
  intro n
  induction n with
  | zero =>
    intro rep hlen _
    rw [List.length_eq_zero.mp (Nat.le_zero.mp hlen)]
    rfl
  | succ n ih =>
    intro rep hlen h
    match rep with
    | [] => rfl
    | [c] => rfl
    | c :: c' :: t =>
      have hc : c ≠ '$' := fun e => h (e ▸ List.mem_cons_self c (c' :: t))
      rw [expandRepl, if_neg hc]
      have ht : '$' ∉ c' :: t := fun hm => h (List.mem_cons_of_mem c hm)
      have hl : (c' :: t).length ≤ n := by
        simp only [List.length_cons] at hlen ⊢
        omega
      rw [ih (c' :: t) hl ht]

theorem expandRepl_no_dollar (matched before after : List Char) {rep : List Char}
    (h : '$' ∉ rep) : expandRepl matched before after rep = rep :=
  expandRepl_no_dollar_aux matched before after rep.length rep le_rfl h

/-! ## Occurrence counting -/

theorem countOcc_nil_of_ne {T : List Char} (hT : T ≠ []) : countOcc T [] = 0 := by
  unfold countOcc
  simp [hT]

theorem countOcc_eq_zero {T : List Char} (hT : T ≠ []) :
    ∀ {s : List Char}, countOcc T s = 0 ↔ ¬ T <:+: s := by
  intro s
  induction s with
  | nil => simp [countOcc_nil_of_ne hT, hT]
  | cons c s ih =>
    unfold countOcc
    rw [List.infix_cons_iff]
    by_cases hpre : T <+: c :: s
    · simp [ List.isPrefixOf_iff_prefix, hpre]
    · simp [ List.isPrefixOf_iff_prefix, hpre, ih]

theorem countOcc_pos_of_infix {T : List Char} (hT : T ≠ []) {s : List Char}
    (h : T <:+: s) : 1 ≤ countOcc T s := by
  by_contra hc
  exact absurd ((countOcc_eq_zero hT).mp (by omega)) (not_not.mpr h)

theorem countOcc_le_cons (T : List Char) (c : Char) (s : List Char) :
    countOcc T s ≤ countOcc T (c :: s) := by
  conv_rhs => rw [countOcc]
  omega

theorem countOcc_le_append (T a b : List Char) : countOcc T b ≤ countOcc T (a ++ b) := by
  induction a with
  | nil => simp
  | cons c a ih => exact ih.trans (by rw [List.cons_append]; exact countOcc_le_cons T c (a ++ b))

theorem countOcc_self_append {T : List Char} (hT : T ≠ []) (rest : List Char) :
    1 + countOcc T rest ≤ countOcc T (T ++ rest) := by
  match T, hT with
  | t₀ :: T', _ =>
    rw [List.cons_append, countOcc]
    have h1 : (t₀ :: T').isPrefixOf (t₀ :: (T' ++ rest)) = true := by
      rw [ List.isPrefixOf_iff_prefix]
      exact ⟨rest, by simp⟩
    rw [h1]
    have := countOcc_le_append (t₀ :: T') T' rest
    simp only [if_true]
    omega

/-- No occurrence of `T` spans the boundary between `a` and `b`: no split of
`T` into two non-empty parts has its left part a suffix of `a` and its right
part a prefix of `b`. -/
def NoSpan (T a b : List Char) : Prop :=
  ∀ u₁ u₂ : List Char, u₁ ++ u₂ = T → u₁ ≠ [] → u₂ ≠ [] → ¬ (u₁ <:+ a ∧ u₂ <+: b)

theorem noSpan_of_tail {T a b : List Char} (c : Char) (h : NoSpan T (c :: a) b) :
    NoSpan T a b := by
  intro u₁ u₂ he h₁ h₂ ⟨hs₁, hs₂⟩
  exact h u₁ u₂ he h₁ h₂ ⟨hs₁.trans (List.suffix_cons c a), hs₂⟩

theorem countOcc_append {T : List Char} (hT : T ≠ []) :
    ∀ {a b : List Char}, NoSpan T a b → countOcc T (a ++ b) = countOcc T a + countOcc T b := by
  intro a
  induction a with
  | nil =>
    intro b _
    simp [countOcc_nil_of_ne hT]
  | cons c a ih =>
    intro b hns
    rw [List.cons_append, countOcc]
    conv_rhs => rw [countOcc]
    have hiff : T <+: c :: (a ++ b) ↔ T <+: c :: a := by
      constructor
      · intro h
        by_cases hlen : T.length ≤ (c :: a).length
        · rw [show c :: (a ++ b) = (c :: a) ++ b from rfl] at h
          exact (List.isPrefix_append_of_length hlen).mp h
        · exfalso
          push_neg at hlen
          rw [show c :: (a ++ b) = (c :: a) ++ b from rfl] at h
          have htake : T.take (c :: a).length = c :: a := by
            have hpt := h.take (c :: a).length
            rw [List.take_left] at hpt
            refine hpt.eq_of_length ?_
            simp only [List.length_take]
            omega
          have hdrop : T.drop (c :: a).length <+: b := by
            have hpd := h.drop (c :: a).length
            rw [List.drop_left] at hpd
            exact hpd
          refine hns (T.take (c :: a).length) (T.drop (c :: a).length)
            (List.take_append_drop _ T) ?_ ?_ ⟨?_, hdrop⟩
          · rw [htake]
            simp
          · intro he
            have hl2 := congrArg List.length he
            simp only [List.length_drop, List.length_nil] at hl2
            omega
          · rw [htake]
      · intro h
        have := h.trans (List.prefix_append (c :: a) b)
        simpa using this
    by_cases hpre : T <+: c :: a
    · rw [ List.isPrefixOf_iff_prefix.symm] at hpre
      have hpre' := hpre
      rw [ List.isPrefixOf_iff_prefix] at hpre
      have h2 : T.isPrefixOf (c :: (a ++ b)) = true := by
        rw [ List.isPrefixOf_iff_prefix]
        exact hiff.mpr hpre
      rw [h2, hpre']
      rw [ih (noSpan_of_tail c hns)]
      omega
    · have h1 : T.isPrefixOf (c :: a) = false := by
        rw [Bool.eq_false_iff]
        intro hc
        rw [ List.isPrefixOf_iff_prefix] at hc
        exact hpre hc
      have h2 : T.isPrefixOf (c :: (a ++ b)) = false := by
        rw [Bool.eq_false_iff]
        intro hc
        rw [ List.isPrefixOf_iff_prefix] at hc
        exact hpre (hiff.mp hc)
      rw [h1, h2]
      rw [ih (noSpan_of_tail c hns)]
      omega

/-- Decomposition of an infix occurrence across an append: it lies in the left
part, in the right part, or spans the boundary. -/
theorem infix_append_cases {T a b : List Char} (hT : T ≠ []) (h : T <:+: a ++ b) :
    T <:+: a ∨ T <:+: b ∨
      ∃ u₁ u₂ : List Char, u₁ ++ u₂ = T ∧ u₁ ≠ [] ∧ u₂ ≠ [] ∧ u₁ <:+ a ∧ u₂ <+: b := by
  by_contra hc
  push_neg at hc
  obtain ⟨ha, hb, hspan⟩ := hc
  have hns : NoSpan T a b := by
    intro u₁ u₂ he h₁ h₂ ⟨hs₁, hs₂⟩
    exact hspan u₁ u₂ he h₁ h₂ hs₁ hs₂
  have h0 : countOcc T (a ++ b) = 0 := by
    rw [countOcc_append hT hns, (countOcc_eq_zero hT).mpr ha, (countOcc_eq_zero hT).mpr hb]
  exact absurd ((countOcc_eq_zero hT).mp h0) (not_not.mpr h)

/-! ## Token structure

Placeholder tokens are rigid: `[IMAGE(` ++ id ++ `)]` with a non-empty,
`)`-free id.  The single `)` sits at the second-to-last position, which makes
it impossible for a proper non-empty prefix of one token to be a suffix of
another (or a proper non-empty suffix to be a prefix): two token occurrences
in a text are either disjoint or one token is contained in the other. -/

theorem tokenL_ne_nil (id : List Char) : tokenL id ≠ [] := by
  simp [tokenL, hd7]

theorem tokenL_eq_append (id : List Char) : tokenL id = (hd7 ++ id) ++ [')', ']'] := by
  simp [tokenL]

theorem tokenL_inj {i j : List Char} (h : tokenL i = tokenL j) : i = j := by
  rw [tokenL_eq_append, tokenL_eq_append] at h
  have h2 := List.append_cancel_right h
  exact List.append_cancel_left h2

theorem rparen_not_mem_head {u : List Char} (hu : ')' ∉ u) : ')' ∉ hd7 ++ u := by
  intro hm
  rcases List.mem_append.mp hm with h | h
  · simp [hd7] at h
  · exact hu h

theorem newline_not_mem_tokenL {u : List Char} (hu : '\n' ∉ u) : '\n' ∉ tokenL u := by
  intro hm
  simp only [tokenL, hd7, List.mem_append] at hm
  rcases hm with (h | h) | h
  · simp at h
  · exact hu h
  · simp at h

/-- In `X ++ c :: Y = A ++ c :: B`, if `c` occurs in neither `X` nor `A`, the
two decompositions coincide. -/
theorem append_cons_unique {c : Char} : ∀ {X A Y B : List Char}, c ∉ X → c ∉ A →
    X ++ c :: Y = A ++ c :: B → X = A ∧ Y = B := by
  intro X
  induction X with
  | nil =>
    intro A Y B _ hA h
    cases A with
    | nil => simpa using h
    | cons a A' =>
      rw [List.nil_append, List.cons_append] at h
      injection h with h1 h2
      exact absurd (h1 ▸ List.mem_cons_self a A') hA
  | cons x X' ih =>
    intro A Y B hX hA h
    cases A with
    | nil =>
      rw [List.nil_append, List.cons_append] at h
      injection h with h1 h2
      exact absurd (h1.symm ▸ List.mem_cons_self x X') hX
    | cons a A' =>
      rw [List.cons_append, List.cons_append] at h
      injection h with h1 h2
      obtain ⟨hXA, hYB⟩ := ih (fun hm => hX (List.mem_cons_of_mem x hm))
        (fun hm => hA (List.mem_cons_of_mem a hm)) h2
      exact ⟨by rw [h1, hXA], hYB⟩

/-- A suffix of `L ++ [a, b]` of length at least two ends in `[a, b]`, with the
remainder a suffix of `L`. -/
theorem suffix_of_append_pair {u₁ L : List Char} {a b : Char}
    (h : u₁ <:+ L ++ [a, b]) (hlen : 2 ≤ u₁.length) :
    ∃ v, u₁ = v ++ [a, b] ∧ v <:+ L := by
  obtain ⟨w, hw⟩ := h
  have hklen : w.length ≤ L.length := by
    have := congrArg List.length hw
    simp only [List.length_append, List.length_cons, List.length_nil] at this
    omega
  refine ⟨L.drop w.length, ?_, List.drop_suffix _ _⟩
  have h1 : u₁ = (w ++ u₁).drop w.length := by rw [List.drop_left]
  rw [h1, hw, List.drop_append_eq_append_drop, Nat.sub_eq_zero_of_le hklen]
  simp

theorem singleton_suffix_last {x b : Char} {L : List Char} (h : [x] <:+ L ++ [b]) : x = b := by
  rw [← List.reverse_prefix] at h
  simpa using h

theorem singleton_prefix_tokenL {x : Char} {p : List Char} (h : [x] <+: tokenL p) : x = '[' := by
  unfold tokenL hd7 at h
  simpa using h

theorem singleton_suffix_tokenL {x : Char} {u : List Char} (h : [x] <:+ tokenL u) : x = ']' := by
  have h2 : [x] <:+ (hd7 ++ u ++ [')']) ++ [']'] := by
    simpa [tokenL] using h
  exact singleton_suffix_last h2

/-- A non-empty prefix of one token that is a suffix of another token must be
the whole first token. -/
theorem tok_piece_left {u p u₁ : List Char} (hu : ')' ∉ u) (hp : ')' ∉ p)
    (h₁ : u₁ <+: tokenL u) (h₂ : u₁ <:+ tokenL p) (hne : u₁ ≠ []) : u₁ = tokenL u := by
  rcases Nat.lt_or_ge u₁.length 2 with hlen | hlen
  · have h1 : u₁.length = 1 := by
      have := List.length_pos.mpr hne
      omega
    obtain ⟨x, hx⟩ := List.length_eq_one.mp h1
    subst hx
    have e1 := singleton_prefix_tokenL (p := u) h₁
    have e2 := singleton_suffix_tokenL h₂
    subst e1
    simp at e2
  · rw [tokenL_eq_append] at h₂
    obtain ⟨v, hv, hvL⟩ := suffix_of_append_pair h₂ hlen
    have hveq : ')' ∉ v := fun hm => rparen_not_mem_head hp (hvL.subset hm)
    obtain ⟨t, ht⟩ := h₁
    rw [hv] at ht
    rw [tokenL_eq_append] at ht
    have ht' : v ++ ')' :: (']' :: t) = (hd7 ++ u) ++ ')' :: (']' :: []) := by
      simpa using ht
    obtain ⟨hXA, hYB⟩ := append_cons_unique hveq (rparen_not_mem_head hu) ht'
    rw [hv, hXA, ← tokenL_eq_append]

/-- A non-empty suffix of one token that is a prefix of another token must be
the whole second token. -/
theorem tok_piece_right {u p u₂ : List Char} (hu : ')' ∉ u) (hp : ')' ∉ p)
    (h₁ : u₂ <:+ tokenL u) (h₂ : u₂ <+: tokenL p) (hne : u₂ ≠ []) : u₂ = tokenL p := by
  rcases Nat.lt_or_ge u₂.length 2 with hlen | hlen
  · have h1 : u₂.length = 1 := by
      have := List.length_pos.mpr hne
      omega
    obtain ⟨x, hx⟩ := List.length_eq_one.mp h1
    subst hx
    have e1 := singleton_suffix_tokenL h₁
    have e2 := singleton_prefix_tokenL (p := p) h₂
    subst e1
    simp at e2
  · rw [tokenL_eq_append] at h₁
    obtain ⟨v, hv, hvL⟩ := suffix_of_append_pair h₁ hlen
    have hveq : ')' ∉ v := fun hm => rparen_not_mem_head hu (hvL.subset hm)
    obtain ⟨t, ht⟩ := h₂
    rw [hv] at ht
    rw [tokenL_eq_append] at ht
    have ht' : v ++ ')' :: (']' :: t) = (hd7 ++ p) ++ ')' :: (']' :: []) := by
      simpa using ht
    obtain ⟨hXA, hYB⟩ := append_cons_unique hveq (rparen_not_mem_head hp) ht'
    rw [hv, hXA, ← tokenL_eq_append]

/-! ## Span-freedom instances -/

/-- No occurrence of token `u` spans the boundary between a token `p` and the
following text (unconditionally: no proper prefix of a token is a suffix of a
token). -/
theorem noSpan_token_left {u p : List Char} (hu : ')' ∉ u) (hp : ')' ∉ p) (a : List Char) :
    NoSpan (tokenL u) (tokenL p) a := by
  intro u₁ u₂ he h₁ h₂ ⟨hs₁, hs₂⟩
  have hpre : u₁ <+: tokenL u := he ▸ List.prefix_append u₁ u₂
  have := tok_piece_left hu hp hpre hs₁ h₁
  subst this
  have hlen := congrArg List.length he
  simp only [List.length_append] at hlen
  exact h₂ (List.length_eq_zero.mp (by omega))

/-- No occurrence of token `u` spans the boundary between arbitrary text and
`tokenL p ++ a`, provided `p`'s token is either `u`'s token itself or not
contained in it. -/
theorem noSpan_token_right {u p : List Char} (hu : ')' ∉ u) (hp : ')' ∉ p)
    (hcase : tokenL p = tokenL u ∨ ¬ tokenL p <:+: tokenL u) (b a : List Char) :
    NoSpan (tokenL u) b (tokenL p ++ a) := by
  intro u₁ u₂ he h₁ h₂ ⟨hs₁, hs₂⟩
  have hsuf : u₂ <:+ tokenL u := he ▸ List.suffix_append u₁ u₂
  rcases List.prefix_or_prefix_of_prefix hs₂ (List.prefix_append (tokenL p) a) with hc | hc
  · have := tok_piece_right hu hp hsuf hc h₂
    subst this
    rcases hcase with hcase | hcase
    · rw [hcase] at he
      have hlen := congrArg List.length he
      simp only [List.length_append] at hlen
      exact h₁ (List.length_eq_zero.mp (by omega))
    · exact hcase hsuf.isInfix
  · rcases hcase with hcase | hcase
    · have hlen₁ : (tokenL p).length ≤ u₂.length := hc.length_le
      have hlen₂ : u₂.length ≤ (tokenL u).length := hsuf.length_le
      rw [hcase] at hlen₁
      have : u₂ = tokenL u := hsuf.eq_of_length (by omega)
      subst this
      have hlen := congrArg List.length he
      simp only [List.length_append] at hlen
      exact h₁ (List.length_eq_zero.mp (by omega))
    · exact hcase ( hc.isInfix.trans hsuf.isInfix)

/-- Occurrence count of a token across a decomposition `b ++ tokenL p ++ a`. -/
theorem countOcc_around_token {u p : List Char} (hu : ')' ∉ u) (hp : ')' ∉ p)
    (hcase : tokenL p = tokenL u ∨ ¬ tokenL p <:+: tokenL u) (b a : List Char) :
    countOcc (tokenL u) (b ++ tokenL p ++ a) =
      countOcc (tokenL u) b + countOcc (tokenL u) (tokenL p) + countOcc (tokenL u) a := by
  rw [List.append_assoc, countOcc_append (tokenL_ne_nil u) (noSpan_token_right hu hp hcase b a),
    countOcc_append (tokenL_ne_nil u) (noSpan_token_left hu hp a)]
  omega

theorem countOcc_self {T : List Char} (hT : T ≠ []) : countOcc T T = 1 := by
  match T, hT with
  | t₀ :: T', _ =>
    rw [countOcc]
    have h1 : (t₀ :: T').isPrefixOf (t₀ :: T') = true := by
      rw [ List.isPrefixOf_iff_prefix]
    have h2 : countOcc (t₀ :: T') T' = 0 := by
      rw [countOcc_eq_zero (by simp)]
      intro hinf
      have := hinf.length_le
      simp at this
    rw [h1, h2]
    simp

theorem mem_of_prefix_head {u m : List Char} {c : Char} (h : u <+: c :: m) (hne : u ≠ []) :
    c ∈ u := by
  match u, hne with
  | d :: t, _ =>
    obtain ⟨hd, -⟩ := List.cons_prefix_cons.mp h
    subst hd
    exact List.mem_cons_self _ _

theorem mem_of_suffix_last {u m : List Char} {c : Char} (h : u <:+ m ++ [c]) (hne : u ≠ []) :
    c ∈ u := by
  rw [← List.reverse_prefix] at h
  simp only [List.reverse_append, List.reverse_cons, List.reverse_nil, List.nil_append] at h
  have : c ∈ u.reverse := mem_of_prefix_head h (by simpa using hne)
  simpa using this

/-- No occurrence of a newline-free `T` spans into text starting with a
newline. -/
theorem noSpan_newline_right {T : List Char} (hTn : '\n' ∉ T) {b : List Char}
    (hb : ∃ m, b = '\n' :: m) (a : List Char) : NoSpan T a b := by
  intro u₁ u₂ he h₁ h₂ ⟨hs₁, hs₂⟩
  obtain ⟨m, hm⟩ := hb
  subst hm
  exact hTn (he ▸ List.mem_append_right u₁ (mem_of_prefix_head hs₂ h₂))

/-- No occurrence of a newline-free `T` spans out of text ending with a
newline. -/
theorem noSpan_newline_left {T : List Char} (hTn : '\n' ∉ T) {a : List Char}
    (ha : ∃ m, a = m ++ ['\n']) (b : List Char) : NoSpan T a b := by
  intro u₁ u₂ he h₁ h₂ ⟨hs₁, hs₂⟩
  obtain ⟨m, hm⟩ := ha
  subst hm
  exact hTn (he ▸ List.mem_append_left u₂ (mem_of_suffix_last hs₁ h₁))

/-- Inserting a newline-delimited text that does not contain `T` between `b`
and `a` contributes no occurrences of a newline-free `T`. -/
theorem countOcc_insert {T : List Char} (hT : T ≠ []) (hTn : '\n' ∉ T) {rep : List Char}
    (hr₁ : ∃ m, rep = '\n' :: m) (hr₂ : ∃ m, rep = m ++ ['\n']) (hTr : ¬ T <:+: rep)
    (b a : List Char) :
    countOcc T (b ++ rep ++ a) = countOcc T b + countOcc T a := by
  obtain ⟨m, hm⟩ := hr₁
  have hba : NoSpan T b (rep ++ a) := by
    refine noSpan_newline_right hTn ⟨m ++ a, ?_⟩ b
    rw [hm, List.cons_append]
  rw [List.append_assoc, countOcc_append hT hba,
    countOcc_append hT (noSpan_newline_left hTn hr₂ a), (countOcc_eq_zero hT).mpr hTr]
  omega

/-! ## Preservation through one replacement step -/

/-- A token occurrence survives the replacement of a different token: tokens
that do not contain one another cannot overlap in the text. -/
theorem replaceFirst_preserves_token {u p : List Char} (hu' : ')' ∉ u) (hp' : ')' ∉ p)
    (h₁ : ¬ tokenL u <:+: tokenL p) (h₂ : ¬ tokenL p <:+: tokenL u) (rep : List Char)
    {s : List Char} (hinf : tokenL u <:+: s) :
    tokenL u <:+: replaceFirst (tokenL p) rep s := by
  cases hsp : splitFirst (tokenL p) s with
  | none =>
    unfold replaceFirst
    rw [hsp]
    exact hinf
  | some v =>
    obtain ⟨b, a⟩ := v
    have hs := splitFirst_some (tokenL p) hsp
    rw [replaceFirst_eq_of_split hsp rep]
    rw [hs, List.append_assoc] at hinf
    have hbp : b <+: b ++ expandRepl (tokenL p) b a rep ++ a := by
      rw [List.append_assoc]
      exact List.prefix_append b _
    have hap : a <:+ b ++ expandRepl (tokenL p) b a rep ++ a :=
      List.suffix_append (b ++ expandRepl (tokenL p) b a rep) a
    rcases infix_append_cases (tokenL_ne_nil u) hinf with hb | hrest | hspan
    · exact hb.trans hbp.isInfix
    · rcases infix_append_cases (tokenL_ne_nil u) hrest with hP | ha | hspan2
      · exact absurd hP h₁
      · exact ha.trans hap.isInfix
      · obtain ⟨u₁, u₂, he, hne₁, hne₂, hs₁, hs₂⟩ := hspan2
        exact absurd ⟨hs₁, hs₂⟩ (noSpan_token_left hu' hp' a u₁ u₂ he hne₁ hne₂)
    · obtain ⟨u₁, u₂, he, hne₁, hne₂, hs₁, hs₂⟩ := hspan
      exact absurd ⟨hs₁, hs₂⟩ (noSpan_token_right hu' hp' (Or.inr h₂) b a u₁ u₂ he hne₁ hne₂)

/-- An occurrence of a newline-wrapped text `T` survives the replacement of a
newline-free token not contained in `T`. -/
theorem replaceFirst_preserves_nl {T p : List Char} (hT₁ : ∃ m, T = '\n' :: m)
    (hT₂ : ∃ m, T = m ++ ['\n']) (hpn : '\n' ∉ tokenL p)
    (hsub : ¬ tokenL p <:+: T) (rep : List Char) {s : List Char} (hinf : T <:+: s) :
    T <:+: replaceFirst (tokenL p) rep s := by
  have hTne : T ≠ [] := by
    obtain ⟨m, hm⟩ := hT₁
    simp [hm]
  cases hsp : splitFirst (tokenL p) s with
  | none =>
    unfold replaceFirst
    rw [hsp]
    exact hinf
  | some v =>
    obtain ⟨b, a⟩ := v
    have hs := splitFirst_some (tokenL p) hsp
    rw [replaceFirst_eq_of_split hsp rep]
    rw [hs, List.append_assoc] at hinf
    have hbp : b <+: b ++ expandRepl (tokenL p) b a rep ++ a := by
      rw [List.append_assoc]
      exact List.prefix_append b _
    have hap : a <:+ b ++ expandRepl (tokenL p) b a rep ++ a :=
      List.suffix_append (b ++ expandRepl (tokenL p) b a rep) a
    rcases infix_append_cases hTne hinf with hb | hrest | hspan
    · exact hb.trans hbp.isInfix
    · rcases infix_append_cases hTne hrest with hP | ha | hspan2
      · exfalso
        obtain ⟨m, hm⟩ := hT₁
        exact hpn (hP.subset (hm ▸ List.mem_cons_self '\n' m))
      · exact ha.trans hap.isInfix
      · obtain ⟨u₁, u₂, he, hne₁, hne₂, hs₁, hs₂⟩ := hspan2
        obtain ⟨m, hm⟩ := hT₁
        refine absurd (hs₁.subset ?_) hpn
        match u₁, hne₁ with
        | d :: t, _ =>
          rw [hm] at he
          rw [List.cons_append] at he
          injection he with hd ht
          subst hd
          exact List.mem_cons_self _ _
    · obtain ⟨u₁, u₂, he, hne₁, hne₂, hs₁, hs₂⟩ := hspan
      have hsufT : u₂ <:+ T := he ▸ List.suffix_append u₁ u₂
      rcases List.prefix_or_prefix_of_prefix hs₂ (List.prefix_append (tokenL p) a) with hc | hc
      · exfalso
        obtain ⟨m, hm⟩ := hT₂
        have : '\n' ∈ u₂ := mem_of_suffix_last (hm ▸ hsufT) hne₂
        exact hpn (hc.subset this)
      · exact absurd ( hc.isInfix.trans hsufT.isInfix) hsub

/-- Replacing a token distinct from (and unrelated to) `tokenL u` does not
change the occurrence count of `tokenL u`, provided the inserted text is
newline-wrapped, `$`-free and does not contain the token. -/
theorem countOcc_replaceFirst_other {u p : List Char} (hu' : ')' ∉ u) (hp' : ')' ∉ p)
    (h₁ : ¬ tokenL u <:+: tokenL p) (h₂ : ¬ tokenL p <:+: tokenL u)
    (hun : '\n' ∉ tokenL u) {rep : List Char} (hdollar : '$' ∉ rep)
    (hr₁ : ∃ m, rep = '\n' :: m) (hr₂ : ∃ m, rep = m ++ ['\n'])
    (hUr : ¬ tokenL u <:+: rep) (s : List Char) :
    countOcc (tokenL u) (replaceFirst (tokenL p) rep s) = countOcc (tokenL u) s := by
  cases hsp : splitFirst (tokenL p) s with
  | none =>
    unfold replaceFirst
    rw [hsp]
  | some v =>
    obtain ⟨b, a⟩ := v
    have hs := splitFirst_some (tokenL p) hsp
    rw [replaceFirst_eq_of_split hsp rep, expandRepl_no_dollar (tokenL p) b a hdollar, hs,
      countOcc_insert (tokenL_ne_nil u) hun hr₁ hr₂ hUr b a,
      countOcc_around_token hu' hp' (Or.inr h₂) b a,
      (countOcc_eq_zero (tokenL_ne_nil u)).mpr h₁]
    omega

/-- Replacing the unique occurrence of `tokenL u` removes it: the count drops
from one to zero. -/
theorem countOcc_replaceFirst_own {u : List Char} (hu' : ')' ∉ u) (hun : '\n' ∉ tokenL u)
    {rep : List Char} (hdollar : '$' ∉ rep) (hr₁ : ∃ m, rep = '\n' :: m)
    (hr₂ : ∃ m, rep = m ++ ['\n']) (hUr : ¬ tokenL u <:+: rep) {s : List Char}
    (hone : countOcc (tokenL u) s = 1) :
    countOcc (tokenL u) (replaceFirst (tokenL u) rep s) = 0 := by
  have hinf : tokenL u <:+: s := by
    by_contra hc
    rw [(countOcc_eq_zero (tokenL_ne_nil u)).mpr hc] at hone
    exact absurd hone (by simp)
  obtain ⟨b, a, hsp⟩ := splitFirst_isSome_of_infix (tokenL_ne_nil u) hinf
  have hs := splitFirst_some (tokenL u) hsp
  rw [hs, countOcc_around_token hu' hu' (Or.inl rfl) b a,
    countOcc_self (tokenL_ne_nil u)] at hone
  rw [replaceFirst_eq_of_split hsp rep, expandRepl_no_dollar (tokenL u) b a hdollar,
    countOcc_insert (tokenL_ne_nil u) hun hr₁ hr₂ hUr b a]
  omega

/-! ## Fold-level preservation -/

theorem foldl_preserves_token {u : List Char} (hu' : ')' ∉ u) :
    ∀ (reps : List Replacement) (s : List Char),
      (∀ r ∈ reps, ∃ p, ')' ∉ p ∧ r.original = tokenL p ∧
        ¬ tokenL u <:+: tokenL p ∧ ¬ tokenL p <:+: tokenL u) →
      tokenL u <:+: s → tokenL u <:+: reps.foldl applyRep s := by
  intro reps
  induction reps with
  | nil => intro s _ h; exact h
  | cons r rest ih =>
    intro s hall hinf
    rw [List.foldl_cons]
    refine ih _ (fun r' hr' => hall r' (List.mem_cons_of_mem r hr')) ?_
    obtain ⟨p, hp', horig, h₁, h₂⟩ := hall r (List.mem_cons_self r rest)
    unfold applyRep
    rw [horig]
    exact replaceFirst_preserves_token hu' hp' h₁ h₂ _ hinf

theorem foldl_preserves_nl {T : List Char} (hT₁ : ∃ m, T = '\n' :: m)
    (hT₂ : ∃ m, T = m ++ ['\n']) :
    ∀ (reps : List Replacement) (s : List Char),
      (∀ r ∈ reps, ∃ p, '\n' ∉ tokenL p ∧ r.original = tokenL p ∧ ¬ tokenL p <:+: T) →
      T <:+: s → T <:+: reps.foldl applyRep s := by
  intro reps
  induction reps with
  | nil => intro s _ h; exact h
  | cons r rest ih =>
    intro s hall hinf
    rw [List.foldl_cons]
    refine ih _ (fun r' hr' => hall r' (List.mem_cons_of_mem r hr')) ?_
    obtain ⟨p, hpn, horig, hsub⟩ := hall r (List.mem_cons_self r rest)
    unfold applyRep
    rw [horig]
    exact replaceFirst_preserves_nl hT₁ hT₂ hpn hsub _ hinf

theorem foldl_countOcc_other {u : List Char} (hu' : ')' ∉ u) (hun : '\n' ∉ tokenL u) :
    ∀ (reps : List Replacement) (s : List Char),
      (∀ r ∈ reps, ∃ p, ')' ∉ p ∧ r.original = tokenL p ∧
        ¬ tokenL u <:+: tokenL p ∧ ¬ tokenL p <:+: tokenL u) →
      (∀ r ∈ reps, '$' ∉ r.specReplacement ∧ (∃ m, r.specReplacement = '\n' :: m) ∧
        (∃ m, r.specReplacement = m ++ ['\n']) ∧ ¬ tokenL u <:+: r.specReplacement) →
      countOcc (tokenL u) (reps.foldl applyRep s) = countOcc (tokenL u) s := by
  intro reps
  induction reps with
  | nil => intro s _ _; rfl
  | cons r rest ih =>
    intro s hall hspec
    rw [List.foldl_cons]
    rw [ih _ (fun r' hr' => hall r' (List.mem_cons_of_mem r hr'))
         (fun r' hr' => hspec r' (List.mem_cons_of_mem r hr'))]
    obtain ⟨p, hp', horig, h₁, h₂⟩ := hall r (List.mem_cons_self r rest)
    obtain ⟨hd, hw₁, hw₂, hUr⟩ := hspec r (List.mem_cons_self r rest)
    unfold applyRep
    rw [horig]
    exact countOcc_replaceFirst_other hu' hp' h₁ h₂ hun hd hw₁ hw₂ hUr s

/-! ## Shape of emitted replacements -/

theorem specBlockText_wrapped (spec : List (String × Json)) :
    (∃ m, specBlockText spec = '\n' :: m) ∧ (∃ m, specBlockText spec = m ++ ['\n']) := by
  constructor
  · refine ⟨"\n```json vega-lite\n".toList ++
      (stringify (Json.obj spec) ++ "\n```\n".toList), ?_⟩
    have hlit : "\n\n```json vega-lite\n".toList = '\n' :: "\n```json vega-lite\n".toList := rfl
    unfold specBlockText
    rw [hlit]
    simp
  · refine ⟨"\n\n```json vega-lite\n".toList ++ stringify (Json.obj spec) ++
      "\n```".toList, ?_⟩
    have hlit : "\n```\n".toList = "\n```".toList ++ ['\n'] := rfl
    unfold specBlockText
    rw [hlit]
    simp

/-- Every entry of `chartReplacements` originates from a scanner match: its
`original` is that match's (well-formed) token text, its `dataName` derives
from the matched id, and its spec replacement text is newline-wrapped. -/
theorem reps_mem_shape {charts : List (Chart Enc)} {tables : List (DictTable Rows Meta)}
    {conceptShelfItems : List Field} {config : ConvertConfig}
    {sv : Services Rows Meta Enc Field Err} {doc : List Char} {r : Replacement}
    (h : r ∈ chartReplacementsOf charts tables conceptShelfItems config sv doc) :
    ∃ i, (tokenL i, i) ∈ scanAux doc ∧ i ≠ [] ∧ ')' ∉ i ∧ r.original = tokenL i ∧
      r.dataName = dataNameOf i ∧
      (∃ m, r.specReplacement = '\n' :: m) ∧ (∃ m, r.specReplacement = m ++ ['\n']) := by
  unfold chartReplacementsOf at h
  obtain ⟨m, hm, hpm⟩ := List.mem_filterMap.mp h
  obtain ⟨horig, hdn, spec, hspec⟩ := processMatch_some hpm
  obtain ⟨hshape, hne, hnin, -⟩ := scanAux_sound doc (f := m.1) (i := m.2) hm
  refine ⟨m.2, ?_, hne, hnin, hshape ▸ horig, hdn, ?_, ?_⟩
  · rw [← hshape]
    exact hm
  · exact hspec ▸ (specBlockText_wrapped _).1
  · exact hspec ▸ (specBlockText_wrapped _).2

/-- The scanner reports each token text at most as often as it occurs. -/
theorem scanFuel_countP_le {f : List Char} (hf : f ≠ []) :
    ∀ (fuel : Nat) (s : List Char), s.length ≤ fuel →
      (scanFuel fuel s).countP (fun m => m.1 == f) ≤ countOcc f s := by
  intro fuel
  induction fuel with
  | zero =>
    intro s _
    simp [scanFuel]
  | succ fuel ih =>
    intro s hlen
    match s with
    | [] => simp [scanFuel]
    | c :: rest =>
      rw [scanFuel]
      split
      · rename_i f' i' rem hmatch
        obtain ⟨hshape, hne, hnin, hsplit⟩ := tryMatchAt_some hmatch
        have hrem : rem.length ≤ fuel := by
          have := tryMatchAt_shrinks hmatch
          simp only [List.length_cons] at this hlen
          omega
        rw [List.countP_cons]
        rw [hsplit]
        by_cases hef : f' = f
        · subst hef
          have h1 := countOcc_self_append hf rem
          have h2 := ih rem hrem
          simp only [beq_self_eq_true, if_pos]
          omega
        · have h1 := countOcc_le_append f f' rem
          have h2 := ih rem hrem
          have : ((f', i').1 == f) = false := by
            simp [hef]
          rw [this]
          simp only [Bool.false_eq_true, if_neg, if_false, not_false_iff]
          omega
      · have hrest : rest.length ≤ fuel := by
          simp only [List.length_cons] at hlen
          omega
        exact (ih rest hrest).trans (countOcc_le_cons f c rest)

theorem scanAux_countP_le {f : List Char} (hf : f ≠ []) (s : List Char) :
    (scanAux s).countP (fun m => m.1 == f) ≤ countOcc f s :=
  scanFuel_countP_le hf s.length s le_rfl

/-! ## Skipped placeholders (C2, C7) -/

/-- Anything that occurs in the substitution-phase result occurs in the final
transformed document (the conversion only appends after it). -/
theorem infix_convert_of_infix_fold {charts : List (Chart Enc)}
    {tables : List (DictTable Rows Meta)} {conceptShelfItems : List Field}
    {config : ConvertConfig} {sv : Services Rows Meta Enc Field Err} {doc T : List Char}
    (h : T <:+: (chartReplacementsOf charts tables conceptShelfItems config sv doc).foldl
          applyRep doc) :
    T <:+: convertToChartifact charts tables conceptShelfItems config sv doc := by
  by_cases hreps : chartReplacementsOf charts tables conceptShelfItems config sv doc = []
  · have hconv : convertToChartifact charts tables conceptShelfItems config sv doc =
        (chartReplacementsOf charts tables conceptShelfItems config sv doc).foldl
          applyRep doc := by
      unfold convertToChartifact
      simp [hreps]
    rw [hconv]
    exact h
  · rw [convert_decomp charts tables conceptShelfItems config sv doc hreps]
    refine h.trans ?_
    rw [List.append_assoc]
    exact List.IsPrefix.isInfix (List.prefix_append _ _)

/-- Core lemma for skipped placeholders: if the scanner matched `[IMAGE(id)]`
but `processMatch` registered nothing for it, and the token neither contains
nor is contained in any registered token, then the token text survives into
the transformed document, no replacement is registered for it, and the
replacement list is exactly that of the other matches. -/
theorem skipped_token_preserved_core (charts : List (Chart Enc))
    (tables : List (DictTable Rows Meta)) (conceptShelfItems : List Field)
    (config : ConvertConfig) (sv : Services Rows Meta Enc Field Err)
    (doc id : List Char) (l₁ l₂ : List (List Char × List Char))
    (hscan : scanAux doc = l₁ ++ (tokenL id, id) :: l₂)
    (hpm : processMatch charts tables conceptShelfItems config sv (tokenL id, id) = none)
    (hnc : ∀ r ∈ chartReplacementsOf charts tables conceptShelfItems config sv doc,
      ¬ tokenL id <:+: r.original ∧ ¬ r.original <:+: tokenL id) :
    tokenL id <:+: convertToChartifact charts tables conceptShelfItems config sv doc ∧
    (∀ r ∈ chartReplacementsOf charts tables conceptShelfItems config sv doc,
      r.original ≠ tokenL id) ∧
    chartReplacementsOf charts tables conceptShelfItems config sv doc =
      l₁.filterMap (processMatch charts tables conceptShelfItems config sv) ++
      l₂.filterMap (processMatch charts tables conceptShelfItems config sv) := by
  have hmem : (tokenL id, id) ∈ scanAux doc := by
    rw [hscan]
    exact List.mem_append_right _ (List.mem_cons_self _ _)
  obtain ⟨-, hne, hnin, hinfdoc⟩ := scanAux_sound doc hmem
  refine ⟨?_, ?_, ?_⟩
  · apply infix_convert_of_infix_fold
    apply foldl_preserves_token hnin _ _ _ hinfdoc
    intro r hr
    obtain ⟨i', hmem', hne', hnin', horig', -, -, -⟩ := reps_mem_shape hr
    exact ⟨i', hnin', horig', horig' ▸ (hnc r hr).1, horig' ▸ (hnc r hr).2⟩
  · intro r hr he
    exact absurd (he ▸ List.infix_rfl) (hnc r hr).1
  · unfold chartReplacementsOf
    rw [hscan, List.filterMap_append]
    congr 1
    simp [hpm]

/-- C2 (amended): a placeholder whose id does not resolve is skipped, and —
provided its token text neither contains nor is contained in any *registered*
(resolved) token — the literal token text is preserved verbatim in the
transformed document; the failure registers no replacement and the other
placeholders are converted exactly as they would be without it.  (Without the
containment proviso the claim is false: see the counterexample.) -/
theorem unresolved_placeholder_preserved_amended (charts : List (Chart Enc))
    (tables : List (DictTable Rows Meta)) (conceptShelfItems : List Field)
    (config : ConvertConfig) (sv : Services Rows Meta Enc Field Err)
    (doc id : List Char) (l₁ l₂ : List (List Char × List Char))
    (hscan : scanAux doc = l₁ ++ (tokenL id, id) :: l₂)
    (hpm : processMatch charts tables conceptShelfItems config sv (tokenL id, id) = none)
    (hnc : ∀ r ∈ chartReplacementsOf charts tables conceptShelfItems config sv doc,
      ¬ tokenL id <:+: r.original ∧ ¬ r.original <:+: tokenL id) :
    tokenL id <:+: convertToChartifact charts tables conceptShelfItems config sv doc ∧
    (∀ r ∈ chartReplacementsOf charts tables conceptShelfItems config sv doc,
      r.original ≠ tokenL id) ∧
    chartReplacementsOf charts tables conceptShelfItems config sv doc =
      l₁.filterMap (processMatch charts tables conceptShelfItems config sv) ++
      l₂.filterMap (processMatch charts tables conceptShelfItems config sv) :=
  skipped_token_preserved_core charts tables conceptShelfItems config sv doc id l₁ l₂
    hscan hpm hnc

theorem unresolved_placeholder_witness :
    tokenL "zz".toList <:+: convertToChartifact exampleCharts exampleTables ([] : List Nat)
      exampleConfig exampleServices "x [IMAGE(zz)] y".toList :=
  (unresolved_placeholder_preserved_amended exampleCharts exampleTables ([] : List Nat)
    exampleConfig exampleServices "x [IMAGE(zz)] y".toList "zz".toList [] []
    (by decide) (by decide) (by decide)).1

set_option maxRecDepth 8000 in
/-- C2 counterexample: the claim as stated — "the literal token text is
preserved verbatim … for every input document" — is false.  In the document
`[IMAGE(x[IMAGE(a)] [IMAGE(a)]` the first (unresolved) placeholder's id is
`x[IMAGE(a`, whose token textually contains the resolved token `[IMAGE(a)]`;
the substitution for `[IMAGE(a)]` hits the *first* occurrence of that text,
which lies inside the unresolved token, so the unresolved token does not
survive verbatim. -/
theorem unresolved_placeholder_counterexample :
    ((tokenL "x[IMAGE(a".toList, "x[IMAGE(a".toList) ∈
        scanAux "[IMAGE(x[IMAGE(a)] [IMAGE(a)]".toList) ∧
    processMatch exampleChartsA exampleTables ([] : List Nat) exampleConfig exampleServices
        (tokenL "x[IMAGE(a".toList, "x[IMAGE(a".toList) = none ∧
    (processMatch exampleChartsA exampleTables ([] : List Nat) exampleConfig exampleServices
        (tokenL "a".toList, "a".toList)).isSome = true ∧
    ¬ tokenL "x[IMAGE(a".toList <:+:
        convertToChartifact exampleChartsA exampleTables ([] : List Nat) exampleConfig
          exampleServices "[IMAGE(x[IMAGE(a)] [IMAGE(a)]".toList := by
  refine ⟨by decide, by decide, by decide, by decide⟩

/-- C7 (amended): if, for a scanner-matched placeholder, the chart and its
table resolve and the chart type is visual, but preprocessing or spec assembly
fails, the failure is confined to that chart: nothing is registered for it
(`processMatch` yields `none`), the other placeholders are converted exactly
as without it, and — provided its token neither contains nor is contained in
any registered token — the placeholder's literal text is preserved in the
output.  (Without that proviso the "left unreplaced" part is false: see the
counterexample.) -/
theorem emission_error_skipped_amended (charts : List (Chart Enc))
    (tables : List (DictTable Rows Meta)) (conceptShelfItems : List Field)
    (config : ConvertConfig) (sv : Services Rows Meta Enc Field Err)
    (doc id : List Char) (l₁ l₂ : List (List Char × List Char))
    (chart : Chart Enc) (chartTable : DictTable Rows Meta)
    (hscan : scanAux doc = l₁ ++ (tokenL id, id) :: l₂)
    (hchart : charts.find? (fun c => c.id == id) = some chart)
    (htbl : tables.find? (fun t => t.id == chart.tableRef) = some chartTable)
    (htype : (chart.chartType == "Table" || chart.chartType == "?") = false)
    (hfail : (∃ e, sv.prepVisTable chartTable.rows conceptShelfItems chart.encodingMap =
        .error e) ∨
      (∃ rows, sv.prepVisTable chartTable.rows conceptShelfItems chart.encodingMap =
          .ok rows ∧
        ∃ e, sv.assembleVegaChart chart.chartType chart.encodingMap conceptShelfItems rows
            chartTable.metadata 30 true config.defaultChartWidth config.defaultChartHeight
            true = .error e))
    (hnc : ∀ r ∈ chartReplacementsOf charts tables conceptShelfItems config sv doc,
      ¬ tokenL id <:+: r.original ∧ ¬ r.original <:+: tokenL id) :
    processMatch charts tables conceptShelfItems config sv (tokenL id, id) = none ∧
    tokenL id <:+: convertToChartifact charts tables conceptShelfItems config sv doc ∧
    (∀ r ∈ chartReplacementsOf charts tables conceptShelfItems config sv doc,
      r.original ≠ tokenL id) ∧
    chartReplacementsOf charts tables conceptShelfItems config sv doc =
      l₁.filterMap (processMatch charts tables conceptShelfItems config sv) ++
      l₂.filterMap (processMatch charts tables conceptShelfItems config sv) := by
  have hpm : processMatch charts tables conceptShelfItems config sv (tokenL id, id) = none := by
    unfold processMatch
    rcases hfail with ⟨e, herr⟩ | ⟨rows, hok, e, herr⟩
    · simp [hchart, htbl, htype, herr]
    · simp [hchart, htbl, htype, hok, herr]
  obtain ⟨h₁, h₂, h₃⟩ := skipped_token_preserved_core charts tables conceptShelfItems config
    sv doc id l₁ l₂ hscan hpm hnc
  exact ⟨hpm, h₁, h₂, h₃⟩

/-- Services whose preprocessing step fails exactly on encoding-map token `1`
(modeling a chart whose aggregation preprocessing throws). -/
def partialServices : Services Nat Nat Nat Nat Unit :=
  { prepVisTable := fun r _ e => if e = 1 then .error () else .ok r
    assembleVegaChart := fun _ _ _ _ _ _ _ _ _ _ => .ok [("mark", Json.str "bar")]
    exportTableToDsv := fun _ _ => .ok "x,y\n1,2".toList }

def failingChart : Chart Nat :=
  { id := "f1".toList, chartType := "bar", encodingMap := 1, tableRef := "t1".toList }

def exampleChartsF : List (Chart Nat) := [failingChart]

/-- Charts for the C7 counterexample: a chart whose id is `x[IMAGE(a` (so its
token textually contains the token of `a`), resolvable but with failing
preprocessing, next to a fully resolvable chart `a`. -/
def exampleChartsNested : List (Chart Nat) :=
  [{ id := "x[IMAGE(a".toList, chartType := "bar", encodingMap := 1, tableRef := "t1".toList },
   { id := "a".toList, chartType := "bar", encodingMap := 0, tableRef := "t1".toList }]

theorem emission_error_witness :
    tokenL "f1".toList <:+: convertToChartifact exampleChartsF exampleTables ([] : List Nat)
      exampleConfig partialServices "x [IMAGE(f1)] y".toList :=
  (emission_error_skipped_amended exampleChartsF exampleTables ([] : List Nat) exampleConfig
    partialServices "x [IMAGE(f1)] y".toList "f1".toList [] [] failingChart
    ⟨"t1".toList, 0, 0⟩ (by decide) rfl rfl rfl
    (Or.inl ⟨(), rfl⟩) (by decide)).2.1

set_option maxRecDepth 8000 in
/-- C7 counterexample: "that chart's placeholder token is left unreplaced in
the output" fails as universally stated.  In `[IMAGE(x[IMAGE(a)] [IMAGE(a)]`
the chart `x[IMAGE(a` resolves but its preprocessing throws; its token
contains the resolved token `[IMAGE(a)]`, whose substitution hits the first
occurrence of that text — inside the erroring chart's placeholder — so that
placeholder is not left intact. -/
theorem emission_error_counterexample :
    (exampleChartsNested.find? (fun c => c.id == "x[IMAGE(a".toList)).isSome = true ∧
    partialServices.prepVisTable 0 ([] : List Nat) 1 = .error () ∧
    processMatch exampleChartsNested exampleTables ([] : List Nat) exampleConfig
        partialServices (tokenL "x[IMAGE(a".toList, "x[IMAGE(a".toList) = none ∧
    (processMatch exampleChartsNested exampleTables ([] : List Nat) exampleConfig
        partialServices (tokenL "a".toList, "a".toList)).isSome = true ∧
    ¬ tokenL "x[IMAGE(a".toList <:+:
        convertToChartifact exampleChartsNested exampleTables ([] : List Nat) exampleConfig
          partialServices "[IMAGE(x[IMAGE(a)] [IMAGE(a)]".toList := by
  refine ⟨by decide, rfl, by decide, by decide, by decide⟩

/-! ## Resolved placeholders (C1) -/

theorem csvBlock_wrapped (r : Replacement) :
    (∃ m, csvBlock r = '\n' :: m) ∧ (∃ m, csvBlock r = m ++ ['\n']) := by
  constructor
  · refine ⟨"```csv ".toList ++ r.dataName ++ "\n".toList ++ r.csvContent ++
      "\n```\n".toList, ?_⟩
    have hlit : "\n```csv ".toList = '\n' :: "```csv ".toList := rfl
    unfold csvBlock
    rw [hlit]
    simp
  · refine ⟨"\n```csv ".toList ++ r.dataName ++ "\n".toList ++ r.csvContent ++
      "\n```".toList, ?_⟩
    have hlit : "\n```\n".toList = "\n```".toList ++ ['\n'] := rfl
    unfold csvBlock
    rw [hlit]
    simp

theorem countOcc_flatten_zero {U : List Char} (hU : U ≠ []) (hUnl : '\n' ∉ U) :
    ∀ (blocks : List (List Char)),
      (∀ b ∈ blocks, (∃ m, b = m ++ ['\n']) ∧ ¬ U <:+: b) →
      countOcc U blocks.flatten = 0 := by
  intro blocks
  induction blocks with
  | nil =>
    intro _
    simp [countOcc_nil_of_ne hU]
  | cons b rest ih =>
    intro hall
    rw [List.flatten_cons]
    obtain ⟨hw, hnb⟩ := hall b (List.mem_cons_self b rest)
    rw [countOcc_append hU (noSpan_newline_left hUnl hw _), (countOcc_eq_zero hU).mpr hnb,
      ih (fun b' hb' => hall b' (List.mem_cons_of_mem b hb'))]

theorem infix_flatten_of_mem : ∀ {L : List (List Char)} {x : List Char},
    x ∈ L → x <:+: L.flatten := by
  intro L
  induction L with
  | nil => intro x h; simp at h
  | cons y rest ih =>
    intro x h
    rw [List.flatten_cons]
    rcases List.mem_cons.mp h with rfl | h
    · exact List.IsPrefix.isInfix (List.prefix_append x rest.flatten)
    · exact (ih h).trans ( List.IsSuffix.isInfix (List.suffix_append y rest.flatten))

/-- C1 (amended): for a scanner-matched placeholder `[IMAGE(id)]` that emits
successfully, in the absence of textual interference — the token occurs
exactly once in the document and ids are newline-free; registered tokens
distinct from it neither contain it nor are contained in it and carry a
different dataName; emitted spec texts are `$`-free and neither they nor the
data blocks contain the token, and no emitted spec text contains any
registered token — the transformed document no longer contains the literal
token; it consists of the substituted text followed by a blank line and the
appended data blocks; exactly one replacement (with dataName
`chartData_<sanitized id>`) is registered for the id, exactly one appended
data block carries that dataName, and the id's spec block and data block both
occur in the transformed document. -/
theorem resolved_placeholder_blocks_amended (charts : List (Chart Enc))
    (tables : List (DictTable Rows Meta)) (conceptShelfItems : List Field)
    (config : ConvertConfig) (sv : Services Rows Meta Enc Field Err)
    (doc id : List Char) (l₁ l₂ : List (List Char × List Char))
    (hscan : scanAux doc = l₁ ++ (tokenL id, id) :: l₂)
    (hpm : (processMatch charts tables conceptShelfItems config sv (tokenL id, id)).isSome
      = true)
    (hone : countOcc (tokenL id) doc = 1)
    (hidnl : '\n' ∉ id)
    (hids : ∀ f i : List Char, (f, i) ∈ scanAux doc → '\n' ∉ i)
    (hnc : ∀ r ∈ chartReplacementsOf charts tables conceptShelfItems config sv doc,
      r.original ≠ tokenL id →
        ¬ tokenL id <:+: r.original ∧ ¬ r.original <:+: tokenL id)
    (hspecs : ∀ r ∈ chartReplacementsOf charts tables conceptShelfItems config sv doc,
      '$' ∉ r.specReplacement ∧ ¬ tokenL id <:+: r.specReplacement)
    (hcsv : ∀ r ∈ chartReplacementsOf charts tables conceptShelfItems config sv doc,
      ¬ tokenL id <:+: csvBlock r)
    (hspectok : ∀ r ∈ chartReplacementsOf charts tables conceptShelfItems config sv doc,
      ∀ r' ∈ chartReplacementsOf charts tables conceptShelfItems config sv doc,
        ¬ r'.original <:+: r.specReplacement)
    (hdn : ∀ r ∈ chartReplacementsOf charts tables conceptShelfItems config sv doc,
      r.original ≠ tokenL id → r.dataName ≠ dataNameOf id) :
    ¬ tokenL id <:+: convertToChartifact charts tables conceptShelfItems config sv doc ∧
    convertToChartifact charts tables conceptShelfItems config sv doc =
      (chartReplacementsOf charts tables conceptShelfItems config sv doc).foldl applyRep doc
        ++ "\n\n".toList
        ++ ((chartReplacementsOf charts tables conceptShelfItems config sv doc).map
              csvBlock).flatten ∧
    ((chartReplacementsOf charts tables conceptShelfItems config sv doc).filter
        (fun r => r.original == tokenL id)).map (fun r => r.dataName) = [dataNameOf id] ∧
    (∀ r ∈ chartReplacementsOf charts tables conceptShelfItems config sv doc,
      r.original = tokenL id →
        r.specReplacement <:+:
          convertToChartifact charts tables conceptShelfItems config sv doc ∧
        csvBlock r <:+:
          convertToChartifact charts tables conceptShelfItems config sv doc) ∧
    ((chartReplacementsOf charts tables conceptShelfItems config sv doc).filter
        (fun r => r.dataName == dataNameOf id)).length = 1 := by
  obtain ⟨r, hr⟩ := Option.isSome_iff_exists.mp hpm
  have hmem : (tokenL id, id) ∈ scanAux doc := by
    rw [hscan]
    exact List.mem_append_right _ (List.mem_cons_self _ _)
  obtain ⟨-, hne, hnin, hinfdoc⟩ := scanAux_sound doc hmem
  have hUne := tokenL_ne_nil id
  have hUnl : '\n' ∉ tokenL id := newline_not_mem_tokenL hidnl
  have horig_r : r.original = tokenL id := (processMatch_some hr).1
  have hdn_r : r.dataName = dataNameOf id := (processMatch_some hr).2.1
  -- the scanner reports the token exactly once
  have hcp := scanAux_countP_le hUne doc
  rw [hone, hscan, List.countP_append, List.countP_cons] at hcp
  have hself : (((tokenL id, id) : List Char × List Char).1 == tokenL id) = true := by simp
  rw [hself, if_pos rfl] at hcp
  have hl₁0 : l₁.countP (fun m => m.1 == tokenL id) = 0 := by omega
  have hl₂0 : l₂.countP (fun m => m.1 == tokenL id) = 0 := by omega
  have hl₁ : ∀ m ∈ l₁, m.1 ≠ tokenL id := by
    intro m hm he
    have := List.countP_eq_zero.mp hl₁0 m hm
    exact this (by simp [he])
  have hl₂ : ∀ m ∈ l₂, m.1 ≠ tokenL id := by
    intro m hm he
    have := List.countP_eq_zero.mp hl₂0 m hm
    exact this (by simp [he])
  -- decompose the replacement list around the id's entry
  have hrepseq : chartReplacementsOf charts tables conceptShelfItems config sv doc =
      l₁.filterMap (processMatch charts tables conceptShelfItems config sv) ++
      r :: l₂.filterMap (processMatch charts tables conceptShelfItems config sv) := by
    unfold chartReplacementsOf
    rw [hscan, List.filterMap_append]
    congr 1
    simp [List.filterMap_cons, hr]
  have hrmem : r ∈ chartReplacementsOf charts tables conceptShelfItems config sv doc := by
    rw [hrepseq]
    exact List.mem_append_right _ (List.mem_cons_self _ _)
  have hrepsne : chartReplacementsOf charts tables conceptShelfItems config sv doc ≠ [] :=
    List.ne_nil_of_mem hrmem
  have hAmem : ∀ r' ∈ l₁.filterMap (processMatch charts tables conceptShelfItems config sv),
      r' ∈ chartReplacementsOf charts tables conceptShelfItems config sv doc := by
    intro r' hr'
    rw [hrepseq]
    exact List.mem_append_left _ hr'
  have hBmem : ∀ r' ∈ l₂.filterMap (processMatch charts tables conceptShelfItems config sv),
      r' ∈ chartReplacementsOf charts tables conceptShelfItems config sv doc := by
    intro r' hr'
    rw [hrepseq]
    exact List.mem_append_right _ (List.mem_cons_of_mem r hr')
  have hAne : ∀ r' ∈ l₁.filterMap (processMatch charts tables conceptShelfItems config sv),
      r'.original ≠ tokenL id := by
    intro r' hr' he
    obtain ⟨m', hm', hpm'⟩ := List.mem_filterMap.mp hr'
    exact hl₁ m' hm' ((processMatch_some hpm').1 ▸ he)
  have hBne : ∀ r' ∈ l₂.filterMap (processMatch charts tables conceptShelfItems config sv),
      r'.original ≠ tokenL id := by
    intro r' hr' he
    obtain ⟨m', hm', hpm'⟩ := List.mem_filterMap.mp hr'
    exact hl₂ m' hm' ((processMatch_some hpm').1 ▸ he)
  -- side-condition bundles for the fold lemmas
  have hgood : ∀ r', r' ∈ chartReplacementsOf charts tables conceptShelfItems config sv doc →
      r'.original ≠ tokenL id →
      ∃ p, ')' ∉ p ∧ r'.original = tokenL p ∧
        ¬ tokenL id <:+: tokenL p ∧ ¬ tokenL p <:+: tokenL id := by
    intro r' hr' hne'
    obtain ⟨i', hscan', hne'', hnin', horig', -, -, -⟩ := reps_mem_shape hr'
    obtain ⟨h1, h2⟩ := hnc r' hr' hne'
    exact ⟨i', hnin', horig', horig' ▸ h1, horig' ▸ h2⟩
  have hgoodspec : ∀ r', r' ∈ chartReplacementsOf charts tables conceptShelfItems config sv
        doc →
      '$' ∉ r'.specReplacement ∧ (∃ m, r'.specReplacement = '\n' :: m) ∧
      (∃ m, r'.specReplacement = m ++ ['\n']) ∧ ¬ tokenL id <:+: r'.specReplacement := by
    intro r' hr'
    obtain ⟨i', hscan', hne'', hnin', horig', -, hw₁, hw₂⟩ := reps_mem_shape hr'
    exact ⟨(hspecs r' hr').1, hw₁, hw₂, (hspecs r' hr').2⟩
  -- occurrence count through the substitution fold
  have hc₁ : countOcc (tokenL id)
      ((l₁.filterMap (processMatch charts tables conceptShelfItems config sv)).foldl
        applyRep doc) = 1 := by
    rw [foldl_countOcc_other hnin hUnl _ doc
      (fun r' hr' => hgood r' (hAmem r' hr') (hAne r' hr'))
      (fun r' hr' => hgoodspec r' (hAmem r' hr'))]
    exact hone
  have hstep : countOcc (tokenL id) (applyRep
      ((l₁.filterMap (processMatch charts tables conceptShelfItems config sv)).foldl
        applyRep doc) r) = 0 := by
    unfold applyRep
    rw [horig_r]
    obtain ⟨hd, hw₁, hw₂, hUr⟩ := hgoodspec r hrmem
    exact countOcc_replaceFirst_own hnin hUnl hd hw₁ hw₂ hUr hc₁
  have hfoldeq : (chartReplacementsOf charts tables conceptShelfItems config sv doc).foldl
      applyRep doc =
      (l₂.filterMap (processMatch charts tables conceptShelfItems config sv)).foldl applyRep
        (applyRep ((l₁.filterMap (processMatch charts tables conceptShelfItems config
          sv)).foldl applyRep doc) r) := by
    rw [hrepseq, List.foldl_append, List.foldl_cons]
  have hc₂ : countOcc (tokenL id)
      ((chartReplacementsOf charts tables conceptShelfItems config sv doc).foldl
        applyRep doc) = 0 := by
    rw [hfoldeq]
    rw [foldl_countOcc_other hnin hUnl _ _
      (fun r' hr' => hgood r' (hBmem r' hr') (hBne r' hr'))
      (fun r' hr' => hgoodspec r' (hBmem r' hr'))]
    exact hstep
  have hb := convert_decomp charts tables conceptShelfItems config sv doc hrepsne
  -- the appended section contains no occurrence of the token
  have hflat0 : countOcc (tokenL id)
      (((chartReplacementsOf charts tables conceptShelfItems config sv doc).map
        csvBlock).flatten) = 0 := by
    apply countOcc_flatten_zero hUne hUnl
    intro b hbmem
    obtain ⟨r', hr', hbeq⟩ := List.mem_map.mp hbmem
    exact ⟨hbeq ▸ (csvBlock_wrapped r').2, hbeq ▸ hcsv r' hr'⟩
  have hnl2flat : countOcc (tokenL id) ("\n\n".toList ++
      ((chartReplacementsOf charts tables conceptShelfItems config sv doc).map
        csvBlock).flatten) = 0 := by
    have hsp1 : NoSpan (tokenL id) "\n\n".toList
        (((chartReplacementsOf charts tables conceptShelfItems config sv doc).map
          csvBlock).flatten) :=
      noSpan_newline_left hUnl ⟨['\n'], rfl⟩ _
    rw [countOcc_append hUne hsp1, hflat0]
    have : ¬ tokenL id <:+: "\n\n".toList := by
      intro hinf
      have := hinf.subset (lbrack_mem_tokenL id)
      simp at this
    rw [(countOcc_eq_zero hUne).mpr this]
  have hcount_out : countOcc (tokenL id)
      (convertToChartifact charts tables conceptShelfItems config sv doc) = 0 := by
    have hsp2 : NoSpan (tokenL id)
        ((chartReplacementsOf charts tables conceptShelfItems config sv doc).foldl
          applyRep doc)
        ("\n\n".toList ++
          ((chartReplacementsOf charts tables conceptShelfItems config sv doc).map
            csvBlock).flatten) :=
      noSpan_newline_right hUnl ⟨'\n' ::
        ((chartReplacementsOf charts tables conceptShelfItems config sv doc).map
          csvBlock).flatten, rfl⟩ _
    rw [hb, List.append_assoc, countOcc_append hUne hsp2, hc₂, hnl2flat]
  refine ⟨?_, hb, ?_, ?_, ?_⟩
  · exact (countOcc_eq_zero hUne).mp hcount_out
  · rw [hrepseq, List.filter_append, List.filter_cons]
    have hpr : (r.original == tokenL id) = true := by simp [horig_r]
    rw [hpr]
    have hfA : (l₁.filterMap (processMatch charts tables conceptShelfItems config sv)).filter
        (fun r' => r'.original == tokenL id) = [] := by
      rw [List.filter_eq_nil_iff]
      intro r' hr'
      simp [hAne r' hr']
    have hfB : (l₂.filterMap (processMatch charts tables conceptShelfItems config sv)).filter
        (fun r' => r'.original == tokenL id) = [] := by
      rw [List.filter_eq_nil_iff]
      intro r' hr'
      simp [hBne r' hr']
    rw [hfA, hfB]
    simp [hdn_r]
  · intro r' hr' horig'
    have hr'r : r' = r := by
      rw [hrepseq] at hr'
      rcases List.mem_append.mp hr' with hA | hB
      · exact absurd horig' (hAne r' hA)
      · rcases List.mem_cons.mp hB with h | h
        · exact h
        · exact absurd horig' (hBne r' h)
    subst hr'r
    obtain ⟨hd, hw₁, hw₂, hUr⟩ := hgoodspec r' hrmem
    constructor
    · apply infix_convert_of_infix_fold
      rw [hfoldeq]
      apply foldl_preserves_nl hw₁ hw₂
      · intro r'' hr''
        obtain ⟨i'', hscan'', hne'', hnin'', horig'', -, -, -⟩ :=
          reps_mem_shape (hBmem r'' hr'')
        refine ⟨i'', newline_not_mem_tokenL (hids (tokenL i'') i'' hscan''), horig'', ?_⟩
        exact horig'' ▸ hspectok r' hrmem r'' (hBmem r'' hr'')
      · rw [applyRep, horig']
        have hinf₁ : tokenL id <:+:
            (l₁.filterMap (processMatch charts tables conceptShelfItems config sv)).foldl
              applyRep doc := by
          by_contra hcon
          rw [(countOcc_eq_zero hUne).mpr hcon] at hc₁
          exact absurd hc₁ (by simp)
        obtain ⟨b, a, hsp⟩ := splitFirst_isSome_of_infix hUne hinf₁
        rw [replaceFirst_eq_of_split hsp _, expandRepl_no_dollar _ _ _ hd]
        exact ⟨b, a, rfl⟩
    · rw [hb]
      have hmemblk : csvBlock r' ∈ (chartReplacementsOf charts tables conceptShelfItems
          config sv doc).map csvBlock := List.mem_map_of_mem csvBlock hrmem
      refine (infix_flatten_of_mem hmemblk).trans ?_
      exact List.IsSuffix.isInfix (List.suffix_append _ _)
  · rw [hrepseq, List.filter_append, List.filter_cons]
    have hpr : (r.dataName == dataNameOf id) = true := by simp [hdn_r]
    rw [hpr]
    have hfA : (l₁.filterMap (processMatch charts tables conceptShelfItems config sv)).filter
        (fun r' => r'.dataName == dataNameOf id) = [] := by
      rw [List.filter_eq_nil_iff]
      intro r' hr'
      simp [hdn r' (hAmem r' hr') (hAne r' hr')]
    have hfB : (l₂.filterMap (processMatch charts tables conceptShelfItems config sv)).filter
        (fun r' => r'.dataName == dataNameOf id) = [] := by
      rw [List.filter_eq_nil_iff]
      intro r' hr'
      simp [hdn r' (hBmem r' hr') (hBne r' hr')]
    rw [hfA, hfB]
    simp

set_option maxRecDepth 8000 in
theorem resolved_placeholder_witness :
    ¬ tokenL "c1".toList <:+: convertToChartifact exampleCharts exampleTables ([] : List Nat)
      exampleConfig exampleServices "See [IMAGE(c1)] here.".toList := by
  refine (resolved_placeholder_blocks_amended exampleCharts exampleTables ([] : List Nat)
    exampleConfig exampleServices "See [IMAGE(c1)] here.".toList "c1".toList [] []
    (by decide) (by decide) (by decide) (by decide) ?_ (by decide) (by decide) (by decide)
    (by decide) (by decide)).1
  intro f i h
  rw [show scanAux "See [IMAGE(c1)] here.".toList =
    [(tokenL "c1".toList, "c1".toList)] by decide] at h
  have h' := List.mem_singleton.mp h
  injection h' with h1 h2
  subst h2
  decide

set_option maxRecDepth 8000 in
/-- C1 counterexample: "exactly one fenced `csv <dataName>` block for that id"
is false as universally stated.  When the resolved placeholder `[IMAGE(c1)]`
occurs twice, each occurrence is substituted and a data block is appended for
each, so the output contains two `csv chartData_c1` blocks. -/
theorem resolved_placeholder_counterexample :
    (processMatch exampleCharts exampleTables ([] : List Nat) exampleConfig exampleServices
        (tokenL "c1".toList, "c1".toList)).isSome = true ∧
    countOcc ("\n```csv ".toList ++ dataNameOf "c1".toList ++ "\n".toList)
        (convertToChartifact exampleCharts exampleTables ([] : List Nat) exampleConfig
          exampleServices "[IMAGE(c1)] [IMAGE(c1)]".toList) = 2 ∧
    (2 : Nat) ≠ 1 := by
  refine ⟨by decide, by decide, by decide⟩

end DataFormulator
